import Mathlib

/-!
# Verification of the dual-buffer knowledge store and compaction engine

Shallow embedding of the core of the `end2end_Audio2knowledgeDatabase` repository:

* `src/src/core/knowledge_base.py` — `QAPair`, `DualBufferKnowledgeBase`
  (`append_qa_pairs`, `create_snapshot`, `switch_buffers_with_tail_sync`, `_save_to_file`);
* `src/src/core/qa_compactor.py` — `QACompactor` (`detect_exact_duplicates`,
  `merge_similar_qa_pairs`, `_parse_simple_merge_response`, `compact_qa_pairs`),
  `QASimilarityAnalyzer` (`find_similar_groups` and its LLM / fallback / batched paths),
  `CompactionScheduler._check_and_compact`;
* `src/src/core/async_llm_processor.py` — `AsyncLLMProcessor` (worker loop, cleanup,
  retry logic, `get_task_status`), as a small-step transition system.

Modelling conventions:

* Python `datetime` timestamps are modelled as `Nat` (only their total order is used);
  wall-clock durations in the scheduler are modelled as `ℚ` minutes.
* `QAPair.metadata` is an open dict; only the keys the verified code reads or writes
  (`confidence`, `keywords`, `category`, `original_ids`) are modelled as record fields.
  Unread bookkeeping keys (`original_count`, `merge_time`, `merge_method`) are omitted.
* Confidences are modelled as `ℚ`; the Python floats involved (0.7, 0.8, 0.9) are
  exactly representable and only compared, never combined arithmetically.
* External LLM / embedding services are parameters: `groupO` models a grouping-oracle
  call together with `_parse_simple_similarity_response` (`none` = call failed or the
  response was unparseable), `mergeLLM` models the merge-oracle call (`none` = failure),
  `simScore` models `calculate_semantic_similarity` (a `difflib.SequenceMatcher`
  weighted blend; abstracted, theorems hold for every score function), and `fresh`
  models `str(uuid.uuid4())`.
* Exceptions: every `except` branch of the translated code is reached only through
  oracle failures, which the parameters expose as `Option`; the translated functions
  are total and return the value the Python code returns after its handlers run.
-/

/-! ## Python string primitives

Lean's built-in `String.trim` / `toLower` / `splitOn` are opaque to kernel reduction,
so the handful of Python string operations the verified code uses are modelled
structurally over the character list of a `String`.  `str.strip()` / `str.lower()`
are modelled over the ASCII range, which covers every comparison the claims make. -/

/-- ASCII whitespace, the characters `str.strip()` removes that can occur here. -/
def isSpaceChar (c : Char) : Bool := c = ' ' || c = '\t' || c = '\n' || c = '\r'

/-- ASCII lower-casing of one character (`str.lower()` per character). -/
def charLower (c : Char) : Char :=
  if 'A' ≤ c ∧ c ≤ 'Z' then Char.ofNat (c.toNat + 32) else c

/-- Python `s.strip()`. -/
def pyStrip (s : String) : String :=
  ⟨((s.data.dropWhile isSpaceChar).reverse.dropWhile isSpaceChar).reverse⟩

/-- Python `s.lower()`. -/
def pyLower (s : String) : String := ⟨s.data.map charLower⟩

/-- Whether the first list is an initial segment of the second. -/
def listPrefixOf : List Char → List Char → Bool
  | [], _ => true
  | _ :: _, [] => false
  | a :: as, b :: bs => a = b && listPrefixOf as bs

/-- Python `s.startswith(pre)`. -/
def pyStartsWith (s pre : String) : Bool := listPrefixOf pre.data s.data

/-- Python `s[n:]`. -/
def pyDrop (s : String) (n : Nat) : String := ⟨s.data.drop n⟩

/-- Split a character list at every newline. -/
def splitNl : List Char → List (List Char)
  | [] => [[]]
  | c :: rest =>
    match splitNl rest with
    | [] => [[c]]
    | h :: t => if c = '\n' then [] :: h :: t else (c :: h) :: t

/-- Python `s.split('\n')`. -/
def pySplitLines (s : String) : List String := (splitNl s.data).map fun l => ⟨l⟩

/-- The float literal `0.8`, the default confidence
(`metadata.get('confidence', 0.8)`), as an exact rational. -/
def defaultConfidence : ℚ := ⟨4, 5, by decide, by decide⟩

/-- The float literal `0.75`, the similarity threshold hard-coded in
`_fallback_similarity_analysis` and passed by the scheduler, as an exact rational. -/
def fallbackThreshold : ℚ := ⟨3, 4, by decide, by decide⟩

/-- The float literal `0.9`, the confidence assigned to merged records, as an exact
rational. -/
def mergedConfidence : ℚ := ⟨9, 10, by decide, by decide⟩

/-- `QAPair` from `knowledge_base.py` (lines 32–66), with the metadata keys that the
verified code reads or writes lifted to fields. -/
structure QARecord where
  id : String
  question : String
  answer : String
  sourceFile : String
  timestamp : Nat
  category : String
  keywords : List String
  confidence : Option ℚ
  originalIds : List String
deriving DecidableEq, Repr

/-- `qa.metadata.get('confidence', 0.8)` (qa_compactor.py lines 884–885). -/
def confOf (r : QARecord) : ℚ := r.confidence.getD defaultConfidence

/-- `qa.question.strip().lower()` — the exact-dedup key (qa_compactor.py line 879). -/
def normKey (r : QARecord) : String := pyLower (pyStrip r.question)

/-- `BufferSnapshot` (knowledge_base.py lines 101–106): a by-value copy of the active
buffer plus the offset where post-snapshot appends begin. -/
structure BufferSnapshot where
  data : List QARecord
  offset : Nat
  createdAt : Nat
deriving DecidableEq, Repr

/-- The mutable state of `DualBufferKnowledgeBase` (knowledge_base.py lines 109–161):
two buffers, the active-buffer pointer, the snapshot registers, the statistics
counters the claims mention, and the durable file's contents. -/
structure KBState where
  bufferA : List QARecord
  bufferB : List QARecord
  activeIsA : Bool
  snapshotOffset : Nat
  currentSnapshot : Option BufferSnapshot
  statsTotalQaPairs : Nat
  statsTotalWrites : Nat
  statsTotalCompacts : Nat
  statsActiveBufferSize : Nat
  statsInactiveBufferSize : Nat
  statsLastCompactTime : Option Nat
  savedFile : List QARecord
deriving DecidableEq, Repr

/-- `_get_active_buffer` (knowledge_base.py lines 163–165). -/
def KBState.activeBuffer (s : KBState) : List QARecord :=
  if s.activeIsA then s.bufferA else s.bufferB

/-- `_get_inactive_buffer` (knowledge_base.py lines 167–169). -/
def KBState.inactiveBuffer (s : KBState) : List QARecord :=
  if s.activeIsA then s.bufferB else s.bufferA

/-- Stable insertion by timestamp: the sort key of `_save_to_file`
(`all_qa_pairs.sort(key=lambda qa: qa.timestamp)`, line 362). -/
def insertByTs (r : QARecord) : List QARecord → List QARecord
  | [] => [r]
  | x :: xs => if x.timestamp ≤ r.timestamp then x :: insertByTs r xs else r :: x :: xs

/-- Stable sort by timestamp (Python `list.sort` is stable). -/
def sortByTs (l : List QARecord) : List QARecord :=
  l.foldl (fun acc r => insertByTs r acc) []

/-- `_save_to_file` (knowledge_base.py lines 355–403): the durable file receives the
merge of both buffers sorted by timestamp.  The temp-file/fsync/rename/lock mechanics
affect no claim and are collapsed into a single assignment of the file contents. -/
def KBState.saveToFile (s : KBState) : KBState :=
  { s with savedFile := sortByTs (s.bufferA ++ s.bufferB) }

/-- Write `l` into whichever buffer is currently active. -/
def KBState.setActiveBuffer (s : KBState) (l : List QARecord) : KBState :=
  if s.activeIsA then { s with bufferA := l } else { s with bufferB := l }

/-- `append_qa_pairs` (knowledge_base.py lines 306–339): empty input returns `True`
without touching anything; otherwise the records are appended to the active buffer,
the counters updated, and (when `auto_save`) the file rewritten. -/
def appendQaPairs (s : KBState) (qaPairs : List QARecord) (autoSave : Bool) :
    Bool × KBState :=
  if qaPairs = [] then (true, s)
  else
    let act := s.activeBuffer ++ qaPairs
    let s1 := s.setActiveBuffer act
    let s2 := { s1 with
      statsTotalWrites := s.statsTotalWrites + 1
      statsActiveBufferSize := act.length
      statsTotalQaPairs := s.statsTotalQaPairs + qaPairs.length }
    (true, if autoSave then s2.saveToFile else s2)

/-- `create_snapshot` (knowledge_base.py lines 426–447): captures the active buffer by
value with `offset = len(active)` and installs it as `current_snapshot`.  Note the code
never inspects `current_snapshot`: an already-pending snapshot is overwritten, not
rejected; the `None` return happens only if an exception is raised, and no statement in
the `try` block can raise. -/
def createSnapshot (s : KBState) (now : Nat) : Option BufferSnapshot × KBState :=
  let act := s.activeBuffer
  let snap : BufferSnapshot := ⟨act, act.length, now⟩
  (some snap, { s with currentSnapshot := some snap, snapshotOffset := act.length })

/-- `switch_buffers_with_tail_sync` (knowledge_base.py lines 449–509): the tail is
`active[snapshot_offset:]`, the new active buffer is `compacted + tail`, the roles
flip, the old active buffer is cleared, the snapshot registers reset, and the file is
rewritten. -/
def switchBuffersWithTailSync (s : KBState) (compactedData : List QARecord)
    (now : Nat) : Bool × KBState :=
  let act := s.activeBuffer
  let tailData := act.drop s.snapshotOffset
  let newActiveData := compactedData ++ tailData
  let s1 : KBState :=
    if s.activeIsA then { s with bufferB := newActiveData, bufferA := [] }
    else { s with bufferA := newActiveData, bufferB := [] }
  let s2 := { s1 with
    activeIsA := !s.activeIsA
    statsActiveBufferSize := newActiveData.length
    statsInactiveBufferSize := 0
    statsTotalCompacts := s.statsTotalCompacts + 1
    statsLastCompactTime := some now
    snapshotOffset := 0
    currentSnapshot := none }
  (true, s2.saveToFile)

/-! ## Exact deduplication (`QACompactor.detect_exact_duplicates`, lines 864–903) -/

/-- One iteration of the `detect_exact_duplicates` loop: look the normalized question
up among the kept records (`seen_questions` always maps a key to the unique kept record
with that key), and either keep, replace, or discard. -/
def dedupStep (acc : List QARecord × List QARecord) (qa : QARecord) :
    List QARecord × List QARecord :=
  match acc.1.find? (fun r => normKey r = normKey qa) with
  | none => (acc.1 ++ [qa], acc.2)
  | some existing =>
    if confOf existing < confOf qa then
      (acc.1.erase existing ++ [qa], acc.2 ++ [existing])
    else
      (acc.1, acc.2 ++ [qa])

/-- `detect_exact_duplicates`: returns `(unique, duplicates)`. -/
def detectExactDuplicates (l : List QARecord) : List QARecord × List QARecord :=
  l.foldl dedupStep ([], [])

/-! ## Merge response parsing (`_parse_simple_merge_response`, lines 789–843) -/

/-- The line loop of `_parse_simple_merge_response`: accumulates the last `Q:` payload
and the last `A:` payload, gluing continuation lines onto the answer. -/
def parseMergeLines (ls : List String) : Option String × Option String :=
  ls.foldl
    (fun acc line =>
      let line := pyStrip line
      if line = "" then acc
      else if pyStartsWith line "Q:" then (some (pyStrip (pyDrop line 2)), acc.2)
      else if pyStartsWith line "A:" then (acc.1, some (pyStrip (pyDrop line 2)))
      else
        match acc.2 with
        | some a => (acc.1, some (a ++ " " ++ line))
        | none => acc)
    (none, none)

/-- `_combine_source_files` (lines 845–862): the single source file if all agree,
otherwise a placeholder naming the number of distinct files. -/
def combineSourceFiles (qaPairs : List QARecord) : String :=
  let ss := (qaPairs.map (·.sourceFile)).dedup
  match ss with
  | [s] => s
  | _ => "merged_from_" ++ toString ss.length ++ "_files"

/-- `_parse_simple_merge_response` (lines 789–843): on a parseable response (both a
nonempty question and a nonempty answer — Python truthiness), synthesize a new record
whose `original_ids` metadata lists every input id and whose id is a fresh uuid
(parameter `freshId`). -/
def parseSimpleMergeResponse (responseText : String)
    (originalQaPairs : List QARecord) (freshId : String) (now : Nat) :
    Option QARecord :=
  match parseMergeLines (pySplitLines (pyStrip responseText)) with
  | (some q, some a) =>
    if q ≠ "" ∧ a ≠ "" then
      some
        { id := freshId
          question := q
          answer := a
          sourceFile := combineSourceFiles originalQaPairs
          timestamp := now
          category := "merged"
          keywords := []
          confidence := some mergedConfidence
          originalIds := originalQaPairs.map (·.id) }
    else none
  | _ => none

/-- `merge_similar_qa_pairs` (lines 750–787; the `def` header of this method was lost
from the snapshot between lines 748 and 750, but its body, its caller
`compact_qa_pairs` line 954, and its log messages identify it unambiguously): groups of
size ≤ 1 are returned as-is; otherwise call the merge oracle and parse its response,
returning `none` on call or parse failure. -/
def mergeSimilarQaPairs (mergeLLM : List QARecord → Option String)
    (fresh : List QARecord → String) (now : Nat)
    (similarQaPairs : List QARecord) : Option QARecord :=
  if similarQaPairs.length ≤ 1 then similarQaPairs.head?
  else
    match mergeLLM similarQaPairs with
    | none => none
    | some txt => parseSimpleMergeResponse txt similarQaPairs (fresh similarQaPairs) now

/-! ## Similarity grouping (`QASimilarityAnalyzer`, qa_compactor.py lines 47–687)

The `while`/`for` double loop with a `processed` index set that appears in
`_fallback_similarity_analysis` (lines 228–248) and `_find_similar_groups_traditional`
(lines 616–635) is translated as a worklist recursion: the leader groups every
still-unprocessed later element that passes the pairwise test, and the recursion
continues on the remaining elements. -/

/-- The shared grouping loop, on index-record pairs. -/
def groupWorklist (p : QARecord → QARecord → Bool) :
    List (Nat × QARecord) → List (List (Nat × QARecord))
  | [] => []
  | x :: rest =>
    (x :: rest.filter (fun y => p x.2 y.2)) ::
      groupWorklist p (rest.filter (fun y => !p x.2 y.2))
termination_by l => l.length
decreasing_by
  simp only [List.length_cons]
  exact Nat.lt_succ_of_le (List.length_filter_le _ _)

/-- The `similar_groups + single_groups` reordering every grouping method ends with
(e.g. lines 637–643). -/
def reorderGroups (groups : List (List QARecord)) : List (List QARecord) :=
  groups.filter (fun g => 1 < g.length) ++ groups.filter (fun g => g.length = 1)

/-- `_fallback_similarity_analysis` (lines 197–264), reduced to the fields its caller
reads: the multi-element groups as index lists, and `independent_qa` (the indices the
grouping loop never touched — none, since the loop processes every index; the filter
below is the literal `[i for i in range(n) if i not in processed]`). -/
def fallbackSimilarityAnalysis (simScore : QARecord → QARecord → ℚ)
    (qaPairs : List QARecord) : List (List Nat) × List Nat :=
  let gs := groupWorklist (fun a b => fallbackThreshold ≤ simScore a b) qaPairs.enum
  let similar := (gs.filter (fun g => 1 < g.length)).map (fun g => g.map (·.1))
  let processed := gs.flatten.map (·.1)
  let indep := (List.range qaPairs.length).filter (fun i => ¬ i ∈ processed)
  (similar, indep)

/-- `calculate_llm_similarity_batch` (lines 82–141): fewer than two records short-
circuits to an empty analysis; otherwise the grouping oracle is consulted and any
failure (network error or unparseable response, `groupO _ = none`) falls back to
`_fallback_similarity_analysis`. -/
def calcLlmSimilarityBatch (groupO : List QARecord → Option (List (List Nat) × List Nat))
    (simScore : QARecord → QARecord → ℚ) (qaPairs : List QARecord) :
    List (List Nat) × List Nat :=
  if qaPairs.length < 2 then ([], List.range qaPairs.length)
  else
    match groupO qaPairs with
    | some analysis => analysis
    | none => fallbackSimilarityAnalysis simScore qaPairs

/-- `_find_similar_groups_llm` (lines 361–421) given the analysis: accept each index
group with more than one valid index (discarding its indices from the independent
set), emit the surviving independent indices as singletons, then sweep: every input
index whose record id was not first-matched by some group member is appended as a
singleton, and the groups are reordered.  Python's `set(independent_qa)` is modelled
as `dedup` of the list (iteration order of a Python set is unspecified; every claim
below instantiates this argument with `[]`). -/
def llmFoldStep (qaPairs : List QARecord) (acc : List (List QARecord) × List Nat)
    (idxs : List Nat) : List (List QARecord) × List Nat :=
  if 1 < (idxs.filterMap (fun i => qaPairs.get? i)).length then
    (acc.1 ++ [idxs.filterMap (fun i => qaPairs.get? i)],
     acc.2.filter (fun j => ¬ j ∈ idxs))
  else acc

def llmAcceptFold (qaPairs : List QARecord) (similar : List (List Nat))
    (indep : List Nat) : List (List QARecord) × List Nat :=
  similar.foldl (llmFoldStep qaPairs) ([], indep.dedup)

/-- The group list before the sweep: accepted multi-groups, then the singletons of the
surviving independent indices. -/
def llmGroups1 (qaPairs : List QARecord) (analysis : List (List Nat) × List Nat) :
    List (List QARecord) :=
  (llmAcceptFold qaPairs analysis.1 analysis.2).1 ++
    (llmAcceptFold qaPairs analysis.1 analysis.2).2.filterMap
      (fun i => (qaPairs.get? i).map (fun r => [r]))

/-- `processed_indices`: for each group member, the first input index whose record has
the member's id. -/
def llmProcessed (qaPairs : List QARecord) (analysis : List (List Nat) × List Nat) :
    List Nat :=
  (llmGroups1 qaPairs analysis).flatten.filterMap
    (fun qa => qaPairs.findIdx? (fun r => r.id = qa.id))

def llmGroupsFromAnalysis (qaPairs : List QARecord)
    (analysis : List (List Nat) × List Nat) : List (List QARecord) :=
  reorderGroups (llmGroups1 qaPairs analysis ++
    ((List.range qaPairs.length).filter
        (fun i => ¬ i ∈ llmProcessed qaPairs analysis)).filterMap
      (fun i => (qaPairs.get? i).map (fun r => [r])))

/-- `_find_similar_groups_traditional` (lines 605–643). -/
def findSimilarGroupsTraditional (simScore : QARecord → QARecord → ℚ) (θ : ℚ)
    (qaPairs : List QARecord) : List (List QARecord) :=
  reorderGroups
    ((groupWorklist (fun a b => θ ≤ simScore a b) qaPairs.enum).map (fun g => g.map (·.2)))

/-- `self.batch_size = 50` (line 72): simple batching, since the analyzer's embedding
prefilter is never initialized (`self.prefilter = None`, line 80, and
`_initialize_advanced_components` is never called on the analyzer). -/
def chunk50 : List QARecord → List (List QARecord)
  | [] => []
  | x :: rest => ((x :: rest).take 50) :: chunk50 ((x :: rest).drop 50)
termination_by l => l.length
decreasing_by
  simp only [List.length_drop, List.length_cons]
  omega

/-- `_find_similar_groups_batch_optimized` (lines 423–488): simple 50-batching,
per-batch LLM grouping with already-processed ids filtered out, then — whenever more
than one group was produced — a call to `self._merge_similar_groups_basic`, a method
that does not exist anywhere in the class, so an `AttributeError` is raised (modelled
as `none`) and caught by `find_similar_groups`' handler.  With at most one group the
call is skipped and the reordered result is returned. -/
def batchFoldStep (groupO : List QARecord → Option (List (List Nat) × List Nat))
    (simScore : QARecord → QARecord → ℚ) (acc : List (List QARecord) × List String)
    (batch : List QARecord) : List (List QARecord) × List String :=
  if batch.filter (fun qa => ¬ acc.2.contains qa.id) = [] then acc
  else
    (acc.1 ++ llmGroupsFromAnalysis (batch.filter (fun qa => ¬ acc.2.contains qa.id))
        (calcLlmSimilarityBatch groupO simScore
          (batch.filter (fun qa => ¬ acc.2.contains qa.id))),
     acc.2 ++ (llmGroupsFromAnalysis (batch.filter (fun qa => ¬ acc.2.contains qa.id))
        (calcLlmSimilarityBatch groupO simScore
          (batch.filter (fun qa => ¬ acc.2.contains qa.id)))).flatten.map (·.id))

def batchOptimizedGroups (groupO : List QARecord → Option (List (List Nat) × List Nat))
    (simScore : QARecord → QARecord → ℚ) (qaPairs : List QARecord) :
    Option (List (List QARecord)) :=
  if 1 < (((chunk50 qaPairs).foldl (batchFoldStep groupO simScore) ([], [])).1).length
  then none
  else some (reorderGroups ((chunk50 qaPairs).foldl (batchFoldStep groupO simScore)
    ([], [])).1)

/-- `self.max_full_context_size = 100` (line 73). -/
def maxFullContextSize : Nat := 100

/-- `find_similar_groups` (lines 325–359): empty and singleton short-circuits; with
`use_llm`, full-context LLM analysis up to 100 records, else the batched strategy
(whose missing-method `AttributeError` the `except` at line 357 converts into a
traditional-grouping run over the full list); without `use_llm`, traditional
grouping. -/
def findSimilarGroups (groupO : List QARecord → Option (List (List Nat) × List Nat))
    (simScore : QARecord → QARecord → ℚ) (qaPairs : List QARecord) (θ : ℚ)
    (useLlm : Bool) : List (List QARecord) :=
  if qaPairs = [] then []
  else if qaPairs.length = 1 then [qaPairs]
  else if useLlm then
    if qaPairs.length ≤ maxFullContextSize then
      llmGroupsFromAnalysis qaPairs (calcLlmSimilarityBatch groupO simScore qaPairs)
    else
      match batchOptimizedGroups groupO simScore qaPairs with
      | some gs => gs
      | none => findSimilarGroupsTraditional simScore θ qaPairs
  else findSimilarGroupsTraditional simScore θ qaPairs

/-! ## Compaction (`QACompactor.compact_qa_pairs`, lines 905–1012) -/

/-- The fields of the `compact_qa_pairs` result dict that the claims read.  Wall-clock
`processing_time`, the token estimate and the cumulative stats dict are omitted. -/
structure CompactResult where
  success : Bool
  originalCount : Nat
  finalCount : Nat
  duplicatesRemoved : Nat
  groupsMerged : Nat
  compacted : List QARecord
deriving DecidableEq, Repr

/-- One iteration of the merge loop of `compact_qa_pairs` (lines 951–966): merge
multi-groups through the oracle, keep `group[0]` on merge failure, keep `group[0]`
for singletons.  The `[] => acc` branches are unreachable (every group is nonempty)
and stand for the `IndexError` that `group[0]` would raise on an empty group. -/
def compactFoldStep (mergeLLM : List QARecord → Option String)
    (fresh : List QARecord → String) (now : Nat) (acc : List QARecord × Nat)
    (group : List QARecord) : List QARecord × Nat :=
  if 1 < group.length then
    match mergeSimilarQaPairs mergeLLM fresh now group with
    | some merged => (acc.1 ++ [merged], acc.2 + 1)
    | none =>
      match group with
      | [] => acc
      | g0 :: _ => (acc.1 ++ [g0], acc.2)
  else
    match group with
    | [] => acc
    | g0 :: _ => (acc.1 ++ [g0], acc.2)

/-- `compact_qa_pairs` (lines 905–1012): exact dedup, similarity grouping, then one
output record per group — the oracle merge for multi-groups (keeping `group[0]` when
the merge fails, line 962) and `group[0]` for singletons.  The `[] => acc` branches
are unreachable (every group is nonempty) and stand for the `IndexError` that
`group[0]` would raise.  All oracle failures are handled below this boundary, so the
`except` at line 1005 is dead and `success` is `True`. -/
def compactQaPairs (groupO : List QARecord → Option (List (List Nat) × List Nat))
    (simScore : QARecord → QARecord → ℚ) (mergeLLM : List QARecord → Option String)
    (fresh : List QARecord → String) (now : Nat) (qaPairs : List QARecord) (θ : ℚ)
    (useLlm : Bool) : CompactResult :=
  let originalCount := qaPairs.length
  let dedup := detectExactDuplicates qaPairs
  let similarGroups := findSimilarGroups groupO simScore dedup.1 θ useLlm
  let step := similarGroups.foldl (compactFoldStep mergeLLM fresh now) ([], 0)
  { success := true
    originalCount := originalCount
    finalCount := step.1.length
    duplicatesRemoved := dedup.2.length
    groupsMerged := step.2
    compacted := step.1 }

/-! ## Compaction scheduler (`CompactionScheduler._check_and_compact`, lines 1096–1203) -/

/-- The trigger decision of `_check_and_compact` (lines 1119–1151).  `total < min`
returns early; otherwise the active-buffer condition, the elapsed-time condition
(minutes, exact rationals for the float division by 60), or — when no compaction ever
happened — the active-buffer condition again, may set `should_compact`. -/
def schedShouldCompact (minQaPairsThreshold minInactiveBufferSize
    maxTimeSinceLastCompaction : Nat) (totalQaPairs activeBufferSize : Nat)
    (lastCompactionTime : Option ℚ) (nowMinutes : ℚ) : Bool :=
  if totalQaPairs < minQaPairsThreshold then false
  else
    let cond2 : Bool := minInactiveBufferSize ≤ activeBufferSize
    let cond3 : Bool :=
      match lastCompactionTime with
      | some t => (maxTimeSinceLastCompaction : ℚ) ≤ nowMinutes - t
      | none => minInactiveBufferSize ≤ activeBufferSize
    cond2 || cond3

/-- `_check_and_compact` (lines 1096–1203): evaluate the trigger on the store's
statistics; when triggered run `create_snapshot`, `compact_qa_pairs` on the snapshot
data (threshold 0.75, LLM similarity on), and on success
`switch_buffers_with_tail_sync` with the compacted records. -/
def checkAndCompact (groupO : List QARecord → Option (List (List Nat) × List Nat))
    (simScore : QARecord → QARecord → ℚ) (mergeLLM : List QARecord → Option String)
    (fresh : List QARecord → String) (minQaPairsThreshold minInactiveBufferSize
    maxTimeSinceLastCompaction : Nat) (kb : KBState) (lastCompactionTime : Option ℚ)
    (nowMinutes : ℚ) (now : Nat) : KBState × Bool :=
  let totalQaPairs := kb.bufferA.length + kb.bufferB.length
  let activeSize := kb.activeBuffer.length
  if schedShouldCompact minQaPairsThreshold minInactiveBufferSize
      maxTimeSinceLastCompaction totalQaPairs activeSize lastCompactionTime nowMinutes
  then
    match createSnapshot kb now with
    | (none, kb1) => (kb1, false)
    | (some snap, kb1) =>
      let res := compactQaPairs groupO simScore mergeLLM fresh now snap.data
        fallbackThreshold true
      if res.success then
        let sw := switchBuffersWithTailSync kb1 res.compacted now
        (sw.2, sw.1)
      else (kb1, false)
  else (kb, false)

/-! ## Async LLM processor (`async_llm_processor.py`)

The worker loop, the thread-pool futures and the cross-thread status queries are
modelled as a small-step transition system.  Task ids are `Nat`; a future is
`pending` until its `_process_task` call returns (`doneOk`) or raises (`doneErr`).
The statistics counters and the completion callbacks (whose errors are caught and
logged, lines 307–311) do not affect any claim and are omitted. -/

/-- A queued task: its id and its `retries` counter (submit_task line 129 starts it
at 0; `_process_task` line 378 increments it before re-enqueueing). -/
structure PTask where
  taskId : Nat
  retries : Nat
deriving DecidableEq, Repr

/-- The fields of a `_process_task` result dict that the bookkeeping reads:
`success`, the dead `retry` marker tested at line 298, and `final_failure`. -/
structure TaskResult where
  success : Bool
  retryFlag : Bool
  finalFailure : Bool
deriving DecidableEq, Repr

/-- A future in `active_tasks`: still running, returned a result dict, or raised
(the message is abstracted to a `Nat` tag). -/
inductive FutState
  | pending
  | doneOk (r : TaskResult)
  | doneErr (msg : Nat)
deriving DecidableEq, Repr

/-- An `active_tasks` entry: the submitted task captured by the future, plus the
future's state. -/
structure ActiveEntry where
  task : PTask
  fut : FutState
deriving DecidableEq, Repr

/-- `future.done()`. -/
def futDone : FutState → Bool
  | .pending => false
  | _ => true

/-- The shared mutable state of `AsyncLLMProcessor`: the queue, `active_tasks`,
`completed_tasks` and `failed_tasks` (insertion-ordered dicts as association
lists). -/
structure ProcState where
  queue : List PTask
  active : List (Nat × ActiveEntry)
  completed : List (Nat × TaskResult)
  failed : List (Nat × Nat)
deriving DecidableEq, Repr

/-- Dict lookup `d.get(k)` / `k in d`. -/
def alLookup {β : Type} (l : List (Nat × β)) (k : Nat) : Option β :=
  (l.find? (fun p => p.1 = k)).map (·.2)

/-- Dict assignment `d[k] = v` on an insertion-ordered dict. -/
def alUpsert {β : Type} (l : List (Nat × β)) (k : Nat) (v : β) : List (Nat × β) :=
  if l.any (fun p => p.1 = k) then l.map (fun p => if p.1 = k then (k, v) else p)
  else l ++ [(k, v)]

/-- `_cleanup_completed_tasks` (lines 286–321): record every done future — normal
returns into `completed_tasks` unless flagged `retry` (then dropped), raised
exceptions into `failed_tasks` — and remove all done futures from `active_tasks`. -/
def cleanupTasks (s : ProcState) : ProcState :=
  let recorded := s.active.foldl
    (fun (acc : List (Nat × TaskResult) × List (Nat × Nat)) e =>
      match e.2.fut with
      | .pending => acc
      | .doneOk r => if r.retryFlag then acc else (alUpsert acc.1 e.1 r, acc.2)
      | .doneErr m => (acc.1, alUpsert acc.2 e.1 m))
    (s.completed, s.failed)
  { s with
    completed := recorded.1
    failed := recorded.2
    active := s.active.filter (fun e => !futDone e.2.fut) }

/-- One pass of `_worker_loop` (lines 254–284) that pulled a task: pop it, clean up,
then either re-enqueue it (pool saturated: `len(active_tasks) >= max_concurrent`,
line 270) or submit it to the executor (`active_tasks[task_id] = future`). -/
def dispatchOnce (maxConcurrentTasks : Nat) (s : ProcState) : ProcState :=
  match s.queue with
  | [] => s
  | task :: rest =>
    let s1 := cleanupTasks { s with queue := rest }
    if maxConcurrentTasks ≤ s1.active.length then { s1 with queue := s1.queue ++ [task] }
    else { s1 with active := alUpsert s1.active task.taskId ⟨task, .pending⟩ }

/-- Overwrite the future of entry `k`. -/
def markFut (l : List (Nat × ActiveEntry)) (k : Nat) (f : FutState) :
    List (Nat × ActiveEntry) :=
  l.map (fun p => if p.1 = k then (p.1, { p.2 with fut := f }) else p)

/-- The transition relation of the processor.  `dispatch` is the worker loop's
non-empty-queue pass; `submit` is `submit_task`; the three `finish…` steps are the
possible endings of `_process_task` (lines 323–396): a normal return (no produced
result carries the `retry` flag), a failure with retries left — which re-enqueues the
task with `retries+1` and then raises — and the final failure after `max_retries`,
which returns a `success=False, final_failure=True` result dict; `cleanup` is a
stand-alone `_cleanup_completed_tasks` (called by `wait_for_all_tasks` and
`get_statistics`). -/
inductive ProcStep (maxRetries maxConcurrentTasks : Nat) : ProcState → ProcState → Prop
  | dispatch (s : ProcState) (h : s.queue ≠ []) :
      ProcStep maxRetries maxConcurrentTasks s (dispatchOnce maxConcurrentTasks s)
  | submit (s : ProcState) (tid : Nat) :
      ProcStep maxRetries maxConcurrentTasks s { s with queue := s.queue ++ [⟨tid, 0⟩] }
  | finishOk (s : ProcState) (tid : Nat) (task : PTask) (r : TaskResult)
      (h : alLookup s.active tid = some ⟨task, .pending⟩) (hr : r.retryFlag = false) :
      ProcStep maxRetries maxConcurrentTasks s
        { s with active := markFut s.active tid (.doneOk r) }
  | finishRetry (s : ProcState) (tid : Nat) (task : PTask) (m : Nat)
      (h : alLookup s.active tid = some ⟨task, .pending⟩)
      (hlt : task.retries < maxRetries) :
      ProcStep maxRetries maxConcurrentTasks s
        { s with
          queue := s.queue ++ [⟨task.taskId, task.retries + 1⟩]
          active := markFut s.active tid (.doneErr m) }
  | finishFinal (s : ProcState) (tid : Nat) (task : PTask)
      (h : alLookup s.active tid = some ⟨task, .pending⟩)
      (hge : maxRetries ≤ task.retries) :
      ProcStep maxRetries maxConcurrentTasks s
        { s with active := markFut s.active tid (.doneOk ⟨false, false, true⟩) }
  | cleanup (s : ProcState) :
      ProcStep maxRetries maxConcurrentTasks s (cleanupTasks s)

/-- Reflexive-transitive closure of `ProcStep`: reachability. -/
def ProcReachable (maxRetries maxConcurrentTasks : Nat) : ProcState → ProcState → Prop :=
  Relation.ReflTransGen (ProcStep maxRetries maxConcurrentTasks)

/-- `get_task_status` (lines 138–172), reduced to the status string (the queue
position and payloads are not checked by any claim). -/
def getTaskStatus (s : ProcState) (tid : Nat) : String :=
  if (alLookup s.completed tid).isSome then "completed"
  else if (alLookup s.failed tid).isSome then "failed"
  else if (alLookup s.active tid).isSome then "processing"
  else if s.queue.any (fun t => t.taskId = tid) then "queued"
  else "not_found"

/-- A freshly started processor: everything empty. -/
def procInit : ProcState := ⟨[], [], [], []⟩

/-- Record ids of a batch. -/
def idsOf (l : List QARecord) : List String := l.map (·.id)

/-- All ids referenced in some record's merge lineage (`metadata['original_ids']`). -/
def lineageOf (l : List QARecord) : List String := (l.map (·.originalIds)).flatten

/-- A minimal concrete record used by the witnesses below. -/
def wRec (i : String) : QARecord := ⟨i, "q" ++ i, "a", "s", 0, "c", [], none, []⟩

/-- A fresh, empty store state used by the witnesses below. -/
def wKB : KBState := ⟨[], [], true, 0, none, 0, 0, 0, 0, 0, none, []⟩

/-- The single record the merge loop of `compact_qa_pairs` emits for one group:
the oracle merge for a multi-group (`group[0]` when it fails), `group[0]` otherwise;
`none` only for an (unreachable) empty group. -/
def compactOut (mergeLLM : List QARecord → Option String)
    (fresh : List QARecord → String) (now : Nat) (group : List QARecord) :
    Option QARecord :=
  if 1 < group.length then
    match mergeSimilarQaPairs mergeLLM fresh now group with
    | some merged => some merged
    | none => group.head?
  else group.head?

/-! # Theorems -/

theorem defaultConfidence_eq : defaultConfidence = 4/5 := by
  rw [defaultConfidence, Rat.mk'_eq_divInt, Rat.divInt_eq_div]; norm_num

theorem fallbackThreshold_eq : fallbackThreshold = 3/4 := by
  rw [fallbackThreshold, Rat.mk'_eq_divInt, Rat.divInt_eq_div]; norm_num

theorem mergedConfidence_eq : mergedConfidence = 9/10 := by
  rw [mergedConfidence, Rat.mk'_eq_divInt, Rat.divInt_eq_div]; norm_num

/-! ## Knowledge-store lemmas -/

theorem activeBuffer_saveToFile (s : KBState) :
    s.saveToFile.activeBuffer = s.activeBuffer := rfl

theorem inactiveBuffer_saveToFile (s : KBState) :
    s.saveToFile.inactiveBuffer = s.inactiveBuffer := rfl

theorem activeBuffer_setActiveBuffer (s : KBState) (l : List QARecord) :
    (s.setActiveBuffer l).activeBuffer = l := by
  unfold KBState.setActiveBuffer KBState.activeBuffer
  by_cases h : s.activeIsA <;> simp [h]

theorem inactiveBuffer_setActiveBuffer (s : KBState) (l : List QARecord) :
    (s.setActiveBuffer l).inactiveBuffer = s.inactiveBuffer := by
  unfold KBState.setActiveBuffer KBState.inactiveBuffer
  by_cases h : s.activeIsA <;> simp [h]

/-- C10 — `append_qa_pairs([])` returns `True` and changes nothing: the early return
at line 317 fires before any lock, counter update or save. -/
theorem appendQaPairs_empty_noop (s : KBState) (autoSave : Bool) :
    appendQaPairs s [] autoSave = (true, s) := by
  simp [appendQaPairs]

/-- C3 counterexample — with a snapshot already pending (`current_snapshot` set and
not yet cleared by a switch), `create_snapshot` does **not** fail: the code never
inspects `current_snapshot` and simply installs a new snapshot. -/
theorem createSnapshot_ignores_pending_counterexample :
    ((⟨[], [], true, 0, some ⟨[], 0, 0⟩, 0, 0, 0, 0, 0, none, []⟩ :
        KBState).currentSnapshot).isSome = true ∧
    ((createSnapshot ⟨[], [], true, 0, some ⟨[], 0, 0⟩, 0, 0, 0, 0, 0, none, []⟩ 1).1).isSome
      = true := by
  exact ⟨rfl, rfl⟩

/-- C3 amended — `create_snapshot` never fails: for every store state, pending
snapshot or not, it returns a snapshot capturing the active buffer by value with
`offset` equal to the active buffer's current length, and (over)writes
`current_snapshot` and `snapshot_offset` with it. -/
theorem createSnapshot_always_captures (s : KBState) (now : Nat) :
    (createSnapshot s now).1 = some ⟨s.activeBuffer, s.activeBuffer.length, now⟩ ∧
    (createSnapshot s now).2.currentSnapshot =
      some ⟨s.activeBuffer, s.activeBuffer.length, now⟩ ∧
    (createSnapshot s now).2.snapshotOffset = s.activeBuffer.length := by
  exact ⟨rfl, rfl, rfl⟩

theorem appendQaPairs_fst (s : KBState) (qaPairs : List QARecord) (autoSave : Bool) :
    (appendQaPairs s qaPairs autoSave).1 = true := by
  unfold appendQaPairs
  split
  · rfl
  · cases autoSave <;> rfl

theorem appendQaPairs_activeBuffer (s : KBState) (qaPairs : List QARecord)
    (autoSave : Bool) (h : ¬ qaPairs = []) :
    ((appendQaPairs s qaPairs autoSave).2).activeBuffer = s.activeBuffer ++ qaPairs := by
  unfold appendQaPairs
  rw [if_neg h]
  cases autoSave <;>
    by_cases hact : s.activeIsA <;>
      simp [KBState.saveToFile, KBState.setActiveBuffer, KBState.activeBuffer, hact]

theorem appendQaPairs_inactiveBuffer (s : KBState) (qaPairs : List QARecord)
    (autoSave : Bool) (h : ¬ qaPairs = []) :
    ((appendQaPairs s qaPairs autoSave).2).inactiveBuffer = s.inactiveBuffer := by
  unfold appendQaPairs
  rw [if_neg h]
  cases autoSave <;>
    by_cases hact : s.activeIsA <;>
      simp [KBState.saveToFile, KBState.setActiveBuffer, KBState.inactiveBuffer, hact]

theorem appendQaPairs_snapshotOffset (s : KBState) (qaPairs : List QARecord)
    (autoSave : Bool) :
    ((appendQaPairs s qaPairs autoSave).2).snapshotOffset = s.snapshotOffset := by
  unfold appendQaPairs
  split
  · rfl
  · cases autoSave <;>
      by_cases hact : s.activeIsA <;>
        simp [KBState.saveToFile, KBState.setActiveBuffer, hact]

theorem switchBuffers_fst (s : KBState) (compacted : List QARecord) (now : Nat) :
    (switchBuffersWithTailSync s compacted now).1 = true := rfl

theorem switchBuffers_activeBuffer (s : KBState) (compacted : List QARecord)
    (now : Nat) :
    (switchBuffersWithTailSync s compacted now).2.activeBuffer =
      compacted ++ s.activeBuffer.drop s.snapshotOffset := by
  unfold switchBuffersWithTailSync
  by_cases hact : s.activeIsA <;>
    simp [KBState.saveToFile, KBState.activeBuffer, hact]

theorem switchBuffers_inactiveBuffer (s : KBState) (compacted : List QARecord)
    (now : Nat) :
    (switchBuffersWithTailSync s compacted now).2.inactiveBuffer = [] := by
  unfold switchBuffersWithTailSync
  by_cases hact : s.activeIsA <;>
    simp [KBState.saveToFile, KBState.inactiveBuffer, hact]

/-- C1 — the spec's scenario: from a store whose buffers are empty, append 5 records,
snapshot (which records `offset = 5` and captures exactly those 5), append 2 more,
then switch with an empty merged list: the switch succeeds, the new active buffer is
exactly the 2 tail records in append order, and the new inactive buffer is empty. -/
theorem snapshot_tail_sync_scenario (s0 : KBState) (xs ys : List QARecord)
    (a1 a2 : Bool) (t1 t2 : Nat)
    (hA : s0.activeBuffer = []) (hI : s0.inactiveBuffer = [])
    (hxs : xs.length = 5) (hys : ys.length = 2) :
    (createSnapshot (appendQaPairs s0 xs a1).2 t1).1 = some ⟨xs, 5, t1⟩ ∧
    (switchBuffersWithTailSync
        (appendQaPairs (createSnapshot (appendQaPairs s0 xs a1).2 t1).2 ys a2).2
        [] t2).1 = true ∧
    (switchBuffersWithTailSync
        (appendQaPairs (createSnapshot (appendQaPairs s0 xs a1).2 t1).2 ys a2).2
        [] t2).2.activeBuffer = ys ∧
    (switchBuffersWithTailSync
        (appendQaPairs (createSnapshot (appendQaPairs s0 xs a1).2 t1).2 ys a2).2
        [] t2).2.inactiveBuffer = [] := by
  have hxne : ¬ (xs = []) := by intro h; rw [h] at hxs; simp at hxs
  have hyne : ¬ (ys = []) := by intro h; rw [h] at hys; simp at hys
  have h1 : ((appendQaPairs s0 xs a1).2).activeBuffer = xs := by
    rw [appendQaPairs_activeBuffer _ _ _ hxne, hA]; simp
  have hsnap1 : (createSnapshot (appendQaPairs s0 xs a1).2 t1).1 = some ⟨xs, 5, t1⟩ := by
    rw [(createSnapshot_always_captures _ t1).1, h1, hxs]
  have hsnapAct : ((createSnapshot (appendQaPairs s0 xs a1).2 t1).2).activeBuffer = xs := by
    show ((appendQaPairs s0 xs a1).2).activeBuffer = xs
    exact h1
  have hsnapOff :
      ((createSnapshot (appendQaPairs s0 xs a1).2 t1).2).snapshotOffset = xs.length := by
    rw [(createSnapshot_always_captures _ t1).2.2, h1]
  have h3act :
      ((appendQaPairs (createSnapshot (appendQaPairs s0 xs a1).2 t1).2 ys a2).2).activeBuffer
        = xs ++ ys := by
    rw [appendQaPairs_activeBuffer _ _ _ hyne, hsnapAct]
  have h3off :
      ((appendQaPairs (createSnapshot (appendQaPairs s0 xs a1).2 t1).2 ys a2).2).snapshotOffset
        = xs.length := by
    rw [appendQaPairs_snapshotOffset, hsnapOff]
  refine ⟨hsnap1, switchBuffers_fst _ _ _, ?_, switchBuffers_inactiveBuffer _ _ _⟩
  rw [switchBuffers_activeBuffer, h3act, h3off]
  simp [List.drop_left]

/-- C1 witness: the scenario theorem applied to a concrete store and 5 + 2 concrete
records. -/
theorem snapshot_tail_sync_scenario_witness :
    (createSnapshot
        (appendQaPairs wKB
          [wRec "x1", wRec "x2", wRec "x3", wRec "x4", wRec "x5"] true).2 1).1 =
      some ⟨[wRec "x1", wRec "x2", wRec "x3", wRec "x4", wRec "x5"], 5, 1⟩ ∧
    (switchBuffersWithTailSync
        (appendQaPairs
          (createSnapshot
            (appendQaPairs wKB
              [wRec "x1", wRec "x2", wRec "x3", wRec "x4", wRec "x5"] true).2 1).2
          [wRec "y1", wRec "y2"] true).2 [] 2).1 = true ∧
    (switchBuffersWithTailSync
        (appendQaPairs
          (createSnapshot
            (appendQaPairs wKB
              [wRec "x1", wRec "x2", wRec "x3", wRec "x4", wRec "x5"] true).2 1).2
          [wRec "y1", wRec "y2"] true).2 [] 2).2.activeBuffer =
      [wRec "y1", wRec "y2"] ∧
    (switchBuffersWithTailSync
        (appendQaPairs
          (createSnapshot
            (appendQaPairs wKB
              [wRec "x1", wRec "x2", wRec "x3", wRec "x4", wRec "x5"] true).2 1).2
          [wRec "y1", wRec "y2"] true).2 [] 2).2.inactiveBuffer = [] :=
  snapshot_tail_sync_scenario wKB
    [wRec "x1", wRec "x2", wRec "x3", wRec "x4", wRec "x5"] [wRec "y1", wRec "y2"]
    true true 1 2 rfl rfl rfl rfl

/-- C4 counterexample — the first condition (total record count ≥ its minimum, here
50 ≥ 50) holding **on its own** does not trigger a compaction: with the active buffer
below its minimum (0 < 20) and the last compaction recent (elapsed 0 < 60 minutes)
the check returns `False`; the total-count condition is a gate (early return when it
fails), not a trigger. -/
theorem scheduler_trigger_counterexample :
    (50 ≤ 50) ∧ schedShouldCompact 50 20 60 50 0 (some 0) 0 = false := by
  constructor
  · exact le_refl 50
  · simp [schedShouldCompact]

/-- C4 amended — the scheduler's check triggers iff the total record count reaches
its minimum **and** (the active-buffer size reaches its minimum, or a previous
compaction finished at least the maximum interval ago); and a triggered check with a
successful compaction runs `create_snapshot`, then `compact_qa_pairs` on the snapshot
data, then `switch_buffers_with_tail_sync` with the merged result, in that order. -/
theorem scheduler_trigger_characterization
    (minQa minBuf maxT total active : Nat) (last : Option ℚ) (nowM : ℚ) :
    (schedShouldCompact minQa minBuf maxT total active last nowM = true ↔
      (minQa ≤ total ∧ (minBuf ≤ active ∨
        ∃ t, last = some t ∧ (maxT : ℚ) ≤ nowM - t))) ∧
    (∀ (groupO : List QARecord → Option (List (List Nat) × List Nat))
        (simScore : QARecord → QARecord → ℚ)
        (mergeLLM : List QARecord → Option String) (fresh : List QARecord → String)
        (kb : KBState) (now : Nat),
      schedShouldCompact minQa minBuf maxT
          (kb.bufferA.length + kb.bufferB.length) kb.activeBuffer.length last nowM
        = true →
      checkAndCompact groupO simScore mergeLLM fresh minQa minBuf maxT kb last nowM now
        = (let kb1 := (createSnapshot kb now).2
           let res := compactQaPairs groupO simScore mergeLLM fresh now
             kb.activeBuffer fallbackThreshold true
           ((switchBuffersWithTailSync kb1 res.compacted now).2,
            (switchBuffersWithTailSync kb1 res.compacted now).1))) := by
  constructor
  · unfold schedShouldCompact
    by_cases hgate : total < minQa
    · simp only [if_pos hgate]
      constructor
      · intro h; exact absurd h (by simp)
      · rintro ⟨h1, _⟩; omega
    · simp only [if_neg hgate]
      cases last with
      | none =>
        simp only [Bool.or_self]
        constructor
        · intro h
          refine ⟨by omega, Or.inl ?_⟩
          exact of_decide_eq_true h
        · rintro ⟨_, h2 | ⟨t, ht, _⟩⟩
          · exact decide_eq_true h2
          · exact absurd ht (by simp)
      | some t =>
        constructor
        · intro h
          refine ⟨by omega, ?_⟩
          rcases Bool.or_eq_true_iff.mp h with h2 | h3
          · exact Or.inl (of_decide_eq_true h2)
          · exact Or.inr ⟨t, rfl, of_decide_eq_true h3⟩
        · rintro ⟨_, h2 | ⟨t', ht', h3⟩⟩
          · exact Bool.or_eq_true_iff.mpr (Or.inl (decide_eq_true h2))
          · cases Option.some.injEq .. ▸ ht' with
            | refl => exact Bool.or_eq_true_iff.mpr (Or.inr (decide_eq_true h3))
  · intro groupO simScore mergeLLM fresh kb now htrig
    unfold checkAndCompact
    rw [if_pos htrig]
    rfl

/-- C4 witness: the characterization applied to a concrete triggered configuration
(empty store, zero thresholds, failing oracles). -/
theorem scheduler_trigger_witness :
    checkAndCompact (fun _ => none) (fun _ _ => 0) (fun _ => none) (fun _ => "")
        0 0 0 wKB none 0 0
      = (let kb1 := (createSnapshot wKB 0).2
         let res := compactQaPairs (fun _ => none) (fun _ _ => 0) (fun _ => none)
           (fun _ => "") 0 wKB.activeBuffer fallbackThreshold true
         ((switchBuffersWithTailSync kb1 res.compacted 0).2,
          (switchBuffersWithTailSync kb1 res.compacted 0).1)) :=
  (scheduler_trigger_characterization 0 0 0 0 0 none 0).2
    (fun _ => none) (fun _ _ => 0) (fun _ => none) (fun _ => "") wKB 0 (by decide)

/-! ## Async-processor lemmas -/

theorem alUpsert_length_le {β : Type} (l : List (Nat × β)) (k : Nat) (v : β) :
    (alUpsert l k v).length ≤ l.length + 1 := by
  unfold alUpsert
  split
  · simp
  · simp

theorem markFut_length (l : List (Nat × ActiveEntry)) (k : Nat) (f : FutState) :
    (markFut l k f).length = l.length := by
  simp [markFut]

theorem cleanupTasks_active_length_le (s : ProcState) :
    (cleanupTasks s).active.length ≤ s.active.length := by
  simp only [cleanupTasks]
  exact List.length_filter_le _ _

theorem procStep_active_le {maxRetries maxConcurrentTasks : Nat} {s s' : ProcState}
    (hstep : ProcStep maxRetries maxConcurrentTasks s s')
    (h : s.active.length ≤ maxConcurrentTasks) :
    s'.active.length ≤ maxConcurrentTasks := by
  cases hstep with
  | dispatch hq =>
    unfold dispatchOnce
    cases hqq : s.queue with
    | nil => simpa using h
    | cons task rest =>
      simp only []
      have hclean : (cleanupTasks { s with queue := rest }).active.length
          ≤ s.active.length := cleanupTasks_active_length_le _
      split
      · exact le_trans hclean h
      · rename_i hlt
        calc (alUpsert (cleanupTasks { s with queue := rest }).active task.taskId
                ⟨task, .pending⟩).length
            ≤ (cleanupTasks { s with queue := rest }).active.length + 1 :=
              alUpsert_length_le _ _ _
          _ ≤ maxConcurrentTasks := by omega
  | submit tid => exact h
  | finishOk tid task r hl hr => simpa [markFut_length] using h
  | finishRetry tid task m hl hlt => simpa [markFut_length] using h
  | finishFinal tid task hl hge => simpa [markFut_length] using h
  | cleanup => exact le_trans (cleanupTasks_active_length_le s) h

/-- C8 — bounded concurrency: in every state the processor can reach from a fresh
start, the number of `processing` entries (`active_tasks`) never exceeds
`max_concurrent_tasks`; the dispatcher's saturation guard (re-enqueue and back off,
`dispatchOnce`) is what maintains it. -/
theorem active_tasks_bounded (maxRetries maxConcurrentTasks : Nat) (s : ProcState)
    (h : ProcReachable maxRetries maxConcurrentTasks procInit s) :
    s.active.length ≤ maxConcurrentTasks := by
  induction h with
  | refl => simp [procInit]
  | tail _ hstep ih => exact procStep_active_le hstep ih

/-- C8 witness: after submitting a task and dispatching it with pool size 1, the
reachable state holds ≤ 1 active task. -/
theorem active_tasks_bounded_witness :
    (dispatchOnce 1 ⟨[⟨5, 0⟩], [], [], []⟩).active.length ≤ 1 :=
  active_tasks_bounded 2 1 _
    (Relation.ReflTransGen.tail
      (Relation.ReflTransGen.tail Relation.ReflTransGen.refl
        (ProcStep.submit procInit 5))
      (ProcStep.dispatch _ (by decide)))

theorem alLookup_isSome_iff {β : Type} (l : List (Nat × β)) (k : Nat) :
    (alLookup l k).isSome ↔ ∃ p ∈ l, p.1 = k := by
  simp [alLookup, List.find?_isSome]

theorem alUpsert_preserves_key {β : Type} (l : List (Nat × β)) (j k : Nat) (v : β)
    (h : (alLookup l k).isSome) : (alLookup (alUpsert l j v) k).isSome := by
  rw [alLookup_isSome_iff] at h ⊢
  obtain ⟨p, hp, hpk⟩ := h
  unfold alUpsert
  split
  · refine ⟨if p.1 = j then (j, v) else p, List.mem_map_of_mem _ hp, ?_⟩
    by_cases hj : p.1 = j
    · simp [hj, ← hpk]
    · rw [if_neg hj]
      exact hpk
  · exact ⟨p, List.mem_append_left _ hp, hpk⟩

theorem cleanup_fold_completed_isSome (entries : List (Nat × ActiveEntry))
    (c0 : List (Nat × TaskResult)) (f0 : List (Nat × Nat)) (tid : Nat)
    (h : (alLookup c0 tid).isSome) :
    (alLookup
      (entries.foldl
        (fun (acc : List (Nat × TaskResult) × List (Nat × Nat)) e =>
          match e.2.fut with
          | .pending => acc
          | .doneOk r => if r.retryFlag then acc else (alUpsert acc.1 e.1 r, acc.2)
          | .doneErr m => (acc.1, alUpsert acc.2 e.1 m))
        (c0, f0)).1 tid).isSome := by
  induction entries generalizing c0 f0 with
  | nil => exact h
  | cons e t ih =>
    simp only [List.foldl_cons]
    cases hf : e.2.fut with
    | pending => exact ih c0 f0 h
    | doneOk r =>
      by_cases hr : r.retryFlag
      · simp only [hf, if_pos hr]; exact ih c0 f0 h
      · simp only [hf, if_neg hr]
        exact ih _ f0 (alUpsert_preserves_key _ _ _ _ h)
    | doneErr m => simp only [hf]; exact ih c0 _ h

theorem cleanupTasks_completed_isSome (s : ProcState) (tid : Nat)
    (h : (alLookup s.completed tid).isSome) :
    (alLookup (cleanupTasks s).completed tid).isSome := by
  simp only [cleanupTasks]
  exact cleanup_fold_completed_isSome s.active s.completed s.failed tid h

theorem procStep_completed_persists {maxRetries maxConcurrentTasks : Nat}
    {s s' : ProcState} (hstep : ProcStep maxRetries maxConcurrentTasks s s')
    (tid : Nat) (h : (alLookup s.completed tid).isSome) :
    (alLookup s'.completed tid).isSome := by
  cases hstep with
  | dispatch hq =>
    unfold dispatchOnce
    cases hqq : s.queue with
    | nil => exact h
    | cons task rest =>
      simp only []
      have hclean : (alLookup (cleanupTasks { s with queue := rest }).completed tid).isSome :=
        cleanupTasks_completed_isSome _ tid h
      split
      · exact hclean
      · exact hclean
  | submit tid2 => exact h
  | finishOk tid2 task r hl hr => exact h
  | finishRetry tid2 task m hl hlt => exact h
  | finishFinal tid2 task hl hge => exact h
  | cleanup => exact cleanupTasks_completed_isSome s tid h

theorem getTaskStatus_of_completed (s : ProcState) (tid : Nat)
    (h : (alLookup s.completed tid).isSome) : getTaskStatus s tid = "completed" := by
  simp [getTaskStatus, h]

/-- C7 counterexample — `max_retries = 2`, pool size 4: the task fails on every
attempt (twice with retries left, once finally).  Its final-failure result dict
(`success=False, final_failure=True`) is stored in `completed_tasks` (the retry-raise
messages land in `failed_tasks`), and `get_task_status` — which checks
`completed_tasks` first — reports `"completed"`, not `"failed"`. -/
theorem task_final_failure_counterexample :
    ProcReachable 2 4 ⟨[⟨0, 0⟩], [], [], []⟩
      ⟨[], [], [(0, ⟨false, false, true⟩)], [(0, 2)]⟩ ∧
    getTaskStatus (⟨[], [], [(0, ⟨false, false, true⟩)], [(0, 2)]⟩ : ProcState) 0
      = "completed" ∧
    getTaskStatus (⟨[], [], [(0, ⟨false, false, true⟩)], [(0, 2)]⟩ : ProcState) 0
      ≠ "failed" := by
  refine ⟨?_, rfl, by decide⟩
  have st1 : ProcStep 2 4 ⟨[⟨0, 0⟩], [], [], []⟩
      ⟨[], [(0, ⟨⟨0, 0⟩, .pending⟩)], [], []⟩ :=
    ProcStep.dispatch _ (by decide)
  have st2 : ProcStep 2 4 ⟨[], [(0, ⟨⟨0, 0⟩, .pending⟩)], [], []⟩
      ⟨[⟨0, 1⟩], [(0, ⟨⟨0, 0⟩, .doneErr 1⟩)], [], []⟩ :=
    ProcStep.finishRetry _ 0 ⟨0, 0⟩ 1 (by decide) (by decide)
  have st3 : ProcStep 2 4 ⟨[⟨0, 1⟩], [(0, ⟨⟨0, 0⟩, .doneErr 1⟩)], [], []⟩
      ⟨[], [(0, ⟨⟨0, 1⟩, .pending⟩)], [], [(0, 1)]⟩ :=
    ProcStep.dispatch _ (by decide)
  have st4 : ProcStep 2 4 ⟨[], [(0, ⟨⟨0, 1⟩, .pending⟩)], [], [(0, 1)]⟩
      ⟨[⟨0, 2⟩], [(0, ⟨⟨0, 1⟩, .doneErr 2⟩)], [], [(0, 1)]⟩ :=
    ProcStep.finishRetry _ 0 ⟨0, 1⟩ 2 (by decide) (by decide)
  have st5 : ProcStep 2 4 ⟨[⟨0, 2⟩], [(0, ⟨⟨0, 1⟩, .doneErr 2⟩)], [], [(0, 1)]⟩
      ⟨[], [(0, ⟨⟨0, 2⟩, .pending⟩)], [], [(0, 2)]⟩ :=
    ProcStep.dispatch _ (by decide)
  have st6 : ProcStep 2 4 ⟨[], [(0, ⟨⟨0, 2⟩, .pending⟩)], [], [(0, 2)]⟩
      ⟨[], [(0, ⟨⟨0, 2⟩, .doneOk ⟨false, false, true⟩⟩)], [], [(0, 2)]⟩ :=
    ProcStep.finishFinal _ 0 ⟨0, 2⟩ (by decide) (by decide)
  have st7 : ProcStep 2 4 ⟨[], [(0, ⟨⟨0, 2⟩, .doneOk ⟨false, false, true⟩⟩)], [], [(0, 2)]⟩
      ⟨[], [], [(0, ⟨false, false, true⟩)], [(0, 2)]⟩ :=
    ProcStep.cleanup _
  exact ((((((Relation.ReflTransGen.single st1).tail st2).tail st3).tail
    st4).tail st5).tail st6).tail st7

/-- C7 amended — once a task's result dict is stored in `completed_tasks` (which is
where the final-failure dict of a task that exhausted its retries lands, see the
counterexample), it is never removed: along every further run of the processor the
task stays recorded and `get_task_status` reports `"completed"` — never `"failed"`,
never stuck `"processing"`, never dropped. -/
theorem completed_task_never_dropped (maxRetries maxConcurrentTasks : Nat)
    (s s' : ProcState) (tid : Nat)
    (hc : (alLookup s.completed tid).isSome)
    (hr : ProcReachable maxRetries maxConcurrentTasks s s') :
    (alLookup s'.completed tid).isSome ∧ getTaskStatus s' tid = "completed" := by
  induction hr with
  | refl => exact ⟨hc, getTaskStatus_of_completed s tid hc⟩
  | tail _ hstep ih =>
    have hsome := procStep_completed_persists hstep tid ih.1
    exact ⟨hsome, getTaskStatus_of_completed _ tid hsome⟩

/-- C7 witness: the persistence theorem applied to the counterexample's final state. -/
theorem completed_task_never_dropped_witness :
    (alLookup (⟨[], [], [(0, ⟨false, false, true⟩)], [(0, 2)]⟩ : ProcState).completed
        0).isSome ∧
    getTaskStatus (⟨[], [], [(0, ⟨false, false, true⟩)], [(0, 2)]⟩ : ProcState) 0
      = "completed" :=
  completed_task_never_dropped 2 4 _ _ 0 (by decide) Relation.ReflTransGen.refl

/-! ## Exact-dedup lemmas -/

theorem dedupStep_eq_of_none (acc : List QARecord × List QARecord) (qa : QARecord)
    (hf : acc.1.find? (fun r => normKey r = normKey qa) = none) :
    dedupStep acc qa = (acc.1 ++ [qa], acc.2) := by
  unfold dedupStep
  rw [hf]

theorem dedupStep_eq_of_lt (acc : List QARecord × List QARecord) (qa ex : QARecord)
    (hf : acc.1.find? (fun r => normKey r = normKey qa) = some ex)
    (hlt : confOf ex < confOf qa) :
    dedupStep acc qa = (acc.1.erase ex ++ [qa], acc.2 ++ [ex]) := by
  unfold dedupStep
  rw [hf]
  simp only [if_pos hlt]

theorem dedupStep_eq_of_ge (acc : List QARecord × List QARecord) (qa ex : QARecord)
    (hf : acc.1.find? (fun r => normKey r = normKey qa) = some ex)
    (hnlt : ¬ confOf ex < confOf qa) :
    dedupStep acc qa = (acc.1, acc.2 ++ [qa]) := by
  unfold dedupStep
  rw [hf]
  simp only [if_neg hnlt]

/-- Two kept records with the same normalized key are the same record (the kept list
mirrors the `seen_questions` dict, which holds one record per key). -/
theorem keyNodup_inj {l : List QARecord} (h : (l.map normKey).Nodup) {x y : QARecord}
    (hx : x ∈ l) (hy : y ∈ l) (hkey : normKey x = normKey y) : x = y :=
  List.inj_on_of_nodup_map h hx hy hkey

theorem dedupStep_keyNodup (acc : List QARecord × List QARecord) (qa : QARecord)
    (h : (acc.1.map normKey).Nodup) : ((dedupStep acc qa).1.map normKey).Nodup := by
  cases hf : acc.1.find? (fun r => normKey r = normKey qa) with
  | none =>
    have hnot : ∀ r ∈ acc.1, ¬ (normKey r = normKey qa) := by
      intro r hr
      simpa using List.find?_eq_none.mp hf r hr
    rw [dedupStep_eq_of_none acc qa hf]
    simp only [List.map_append, List.map_cons, List.map_nil, List.nodup_append]
    refine ⟨h, List.nodup_singleton _, ?_⟩
    intro k hk hk1
    simp only [List.mem_map] at hk
    obtain ⟨r, hr, hrk⟩ := hk
    simp only [List.mem_singleton] at hk1
    exact (hnot r hr (by rw [← hrk] at hk1; exact hk1)).elim
  | some ex =>
    have hexMem : ex ∈ acc.1 := List.mem_of_find?_eq_some hf
    have hexKey : normKey ex = normKey qa := by simpa using List.find?_some hf
    have hndl : acc.1.Nodup := h.of_map _
    by_cases hlt : confOf ex < confOf qa
    · rw [dedupStep_eq_of_lt acc qa ex hf hlt]
      have hsub : ((acc.1.erase ex).map normKey).Sublist (acc.1.map normKey) :=
        (List.erase_sublist ex acc.1).map _
      simp only [List.map_append, List.map_cons, List.map_nil, List.nodup_append]
      refine ⟨hsub.nodup h, List.nodup_singleton _, ?_⟩
      intro k hk hk1
      simp only [List.mem_map] at hk
      obtain ⟨r, hr, hrk⟩ := hk
      simp only [List.mem_singleton] at hk1
      have hrmem : r ∈ acc.1 := List.mem_of_mem_erase hr
      have hkeyr : normKey r = normKey ex := by rw [hrk, hk1, hexKey]
      have hre : r = ex := keyNodup_inj h hrmem hexMem hkeyr
      rw [hre] at hr
      exact (hndl.mem_erase_iff.mp hr).1 rfl
    · rw [dedupStep_eq_of_ge acc qa ex hf hlt]
      exact h

/-- Every kept record keeps dominating (same key, confidence only grows) across one
dedup step. -/
theorem dedupStep_dominates (acc : List QARecord × List QARecord) (qa : QARecord)
    (h : (acc.1.map normKey).Nodup) :
    ∀ x ∈ acc.1, ∃ y ∈ (dedupStep acc qa).1,
      normKey y = normKey x ∧ confOf x ≤ confOf y := by
  intro x hx
  cases hf : acc.1.find? (fun r => normKey r = normKey qa) with
  | none =>
    rw [dedupStep_eq_of_none acc qa hf]
    exact ⟨x, List.mem_append_left _ hx, rfl, le_refl _⟩
  | some ex =>
    have hexKey : normKey ex = normKey qa := by simpa using List.find?_some hf
    have hndl : acc.1.Nodup := h.of_map _
    by_cases hlt : confOf ex < confOf qa
    · rw [dedupStep_eq_of_lt acc qa ex hf hlt]
      by_cases hxe : x = ex
      · refine ⟨qa, List.mem_append_right _ (List.mem_singleton_self _), ?_, ?_⟩
        · rw [← hexKey, hxe]
        · rw [hxe]; exact le_of_lt hlt
      · exact ⟨x, List.mem_append_left _ (hndl.mem_erase_iff.mpr ⟨hxe, hx⟩),
          rfl, le_refl _⟩
    · rw [dedupStep_eq_of_ge acc qa ex hf hlt]
      exact ⟨x, hx, rfl, le_refl _⟩

/-- The record just consumed is dominated by some kept record after its step. -/
theorem dedupStep_covers (acc : List QARecord × List QARecord) (qa : QARecord) :
    ∃ y ∈ (dedupStep acc qa).1, normKey y = normKey qa ∧ confOf qa ≤ confOf y := by
  cases hf : acc.1.find? (fun r => normKey r = normKey qa) with
  | none =>
    rw [dedupStep_eq_of_none acc qa hf]
    exact ⟨qa, List.mem_append_right _ (List.mem_singleton_self _), rfl, le_refl _⟩
  | some ex =>
    have hexMem : ex ∈ acc.1 := List.mem_of_find?_eq_some hf
    have hexKey : normKey ex = normKey qa := by simpa using List.find?_some hf
    by_cases hlt : confOf ex < confOf qa
    · rw [dedupStep_eq_of_lt acc qa ex hf hlt]
      exact ⟨qa, List.mem_append_right _ (List.mem_singleton_self _), rfl, le_refl _⟩
    · rw [dedupStep_eq_of_ge acc qa ex hf hlt]
      exact ⟨ex, hexMem, hexKey, le_of_not_lt hlt⟩

/-- Kept records only improve along the whole fold. -/
theorem dedup_persist (l : List QARecord) :
    ∀ (acc : List QARecord × List QARecord), (acc.1.map normKey).Nodup →
    ∀ r ∈ (l.foldl dedupStep acc).1, ∀ x ∈ acc.1,
      normKey x = normKey r → confOf x ≤ confOf r := by
  induction l with
  | nil =>
    intro acc hND r hr x hx hkey
    have hrx : x = r := keyNodup_inj hND hx (by simpa using hr) hkey
    exact hrx ▸ le_refl _
  | cons q t ih =>
    intro acc hND r hr x hx hkey
    obtain ⟨y, hy, hykey, hxy⟩ := dedupStep_dominates acc q hND x hx
    have hND' := dedupStep_keyNodup acc q hND
    have hyr : confOf y ≤ confOf r :=
      ih (dedupStep acc q) hND' r (by simpa using hr) y hy (hykey.trans hkey)
    exact le_trans hxy hyr

/-- Every input record with the same key as a kept record has no larger confidence. -/
theorem dedup_max_aux (l : List QARecord) :
    ∀ (acc : List QARecord × List QARecord), (acc.1.map normKey).Nodup →
    ∀ r ∈ (l.foldl dedupStep acc).1, ∀ s ∈ l,
      normKey s = normKey r → confOf s ≤ confOf r := by
  induction l with
  | nil => intro acc _ r _ s hs; exact absurd hs (List.not_mem_nil s)
  | cons q t ih =>
    intro acc hND r hr s hs hkey
    have hND' := dedupStep_keyNodup acc q hND
    rcases List.mem_cons.mp hs with hsq | hst
    · obtain ⟨y, hy, hykey, hqy⟩ := dedupStep_covers acc q
      have hyr : confOf y ≤ confOf r :=
        dedup_persist t (dedupStep acc q) hND' r (by simpa using hr) y hy
          (by rw [hykey, ← hkey, hsq])
      exact le_trans (hsq ▸ hqy) hyr
    · exact ih (dedupStep acc q) hND' r (by simpa using hr) s hst hkey

/-- C6 — two records with identical normalized question text and confidences 0.7 and
0.9: `detect_exact_duplicates` keeps only the 0.9 record, in either input order; and
in general every kept record carries the maximal confidence of its identical-question
group over the whole input. -/
theorem dedup_keeps_highest_confidence (a b : QARecord)
    (hkey : normKey a = normKey b) (ha : confOf a = 7/10) (hb : confOf b = 9/10) :
    ((detectExactDuplicates [a, b]).1 = [b] ∧
     (detectExactDuplicates [b, a]).1 = [b]) ∧
    ∀ (l : List QARecord), ∀ r ∈ (detectExactDuplicates l).1, ∀ s ∈ l,
      normKey s = normKey r → confOf s ≤ confOf r := by
  have hlt : confOf a < confOf b := by rw [ha, hb]; norm_num
  have hnlt : ¬ (confOf b < confOf a) := by rw [ha, hb]; norm_num
  refine ⟨⟨?_, ?_⟩, ?_⟩
  · show (dedupStep (dedupStep ([], []) a) b).1 = [b]
    have h1 : dedupStep ([], []) a = ([a], []) := rfl
    rw [h1, dedupStep_eq_of_lt ([a], []) b a ?_ hlt]
    · simp
    · exact List.find?_cons_of_pos _ (by simp [hkey])
  · show (dedupStep (dedupStep ([], []) b) a).1 = [b]
    have h1 : dedupStep ([], []) b = ([b], []) := rfl
    rw [h1, dedupStep_eq_of_ge ([b], []) a b ?_ hnlt]
    · exact List.find?_cons_of_pos _ (by simp [hkey])
  · intro l r hr s hs hk
    exact dedup_max_aux l ([], []) (by simp) r hr s hs hk

/-- C6 witness: two concrete records sharing the question `"q"` with confidences
0.7 / 0.9 — only the 0.9 record survives, whichever comes first. -/
theorem dedup_keeps_highest_confidence_witness :
    (detectExactDuplicates
        [{ wRec "a" with question := "q", confidence := some (7/10) },
         { wRec "b" with question := "q", confidence := some (9/10) }]).1 =
      [{ wRec "b" with question := "q", confidence := some (9/10) }] ∧
    (detectExactDuplicates
        [{ wRec "b" with question := "q", confidence := some (9/10) },
         { wRec "a" with question := "q", confidence := some (7/10) }]).1 =
      [{ wRec "b" with question := "q", confidence := some (9/10) }] :=
  (dedup_keeps_highest_confidence
    { wRec "a" with question := "q", confidence := some (7/10) }
    { wRec "b" with question := "q", confidence := some (9/10) }
    (by decide) rfl rfl).1

/-- C9 — a successful merge of a group of ≥ 2 records produces a **new** record: its
`original_ids` metadata lists the ids of all group members in order, its id is the
freshly drawn uuid, and — the uuid being distinct from every input id — the merged
record differs from every input record; the inputs themselves are values, never
mutated. -/
theorem mergeSimilar_lineage (mergeLLM : List QARecord → Option String)
    (fresh : List QARecord → String) (now : Nat) (g : List QARecord) (m : QARecord)
    (hg : 2 ≤ g.length) (hm : mergeSimilarQaPairs mergeLLM fresh now g = some m) :
    m.originalIds = g.map (·.id) ∧ m.id = fresh g ∧
    (fresh g ∉ g.map (·.id) → ∀ r ∈ g, m ≠ r) := by
  unfold mergeSimilarQaPairs at hm
  rw [if_neg (by omega)] at hm
  cases hllm : mergeLLM g with
  | none => rw [hllm] at hm; exact absurd hm (by simp)
  | some txt =>
    rw [hllm] at hm
    have hm2 : parseSimpleMergeResponse txt g (fresh g) now = some m := hm
    unfold parseSimpleMergeResponse at hm2
    rcases hp : parseMergeLines (pySplitLines (pyStrip txt)) with ⟨oq, oa⟩
    rw [hp] at hm2
    cases oq with
    | none => exact absurd hm2 (by simp)
    | some q =>
      cases oa with
      | none => exact absurd hm2 (by simp)
      | some a =>
        have hm3 : (if q ≠ "" ∧ a ≠ "" then
            some (⟨fresh g, q, a, combineSourceFiles g, now, "merged", [],
              some mergedConfidence, g.map (·.id)⟩ : QARecord)
          else none) = some m := hm2
        by_cases hqa : q ≠ "" ∧ a ≠ ""
        · rw [if_pos hqa] at hm3
          have hm' := Option.some.inj hm3
          refine ⟨by rw [← hm'], by rw [← hm'], ?_⟩
          intro hfresh r hr hmr
          apply hfresh
          have hid : r.id = fresh g := by rw [← hmr, ← hm']
          rw [← hid]
          exact List.mem_map_of_mem _ hr
        · rw [if_neg hqa] at hm3; exact absurd hm3 (by simp)

/-- C9 witness: merging two concrete records with a parseable oracle response
`"Q: q\nA: ans"` and fresh uuid `"f"`. -/
theorem mergeSimilar_lineage_witness :
    (⟨"f", "q", "ans", "s", 0, "merged", [], some mergedConfidence, ["a", "b"]⟩ :
        QARecord).originalIds = [wRec "a", wRec "b"].map (·.id) ∧
    (⟨"f", "q", "ans", "s", 0, "merged", [], some mergedConfidence, ["a", "b"]⟩ :
        QARecord).id = (fun _ : List QARecord => "f") [wRec "a", wRec "b"] ∧
    ((fun _ : List QARecord => "f") [wRec "a", wRec "b"]
        ∉ [wRec "a", wRec "b"].map (·.id) →
      ∀ r ∈ [wRec "a", wRec "b"],
        (⟨"f", "q", "ans", "s", 0, "merged", [], some mergedConfidence, ["a", "b"]⟩ :
          QARecord) ≠ r) :=
  mergeSimilar_lineage (fun _ => some "Q: q\nA: ans") (fun _ => "f") 0
    [wRec "a", wRec "b"]
    ⟨"f", "q", "ans", "s", 0, "merged", [], some mergedConfidence, ["a", "b"]⟩
    (by decide) (by decide)

/-! ## Grouping lemmas -/

theorem groupWorklist_flatten_perm (p : QARecord → QARecord → Bool)
    (w : List (Nat × QARecord)) : List.Perm (groupWorklist p w).flatten w := by
  suffices h : ∀ (n : Nat) (w : List (Nat × QARecord)), w.length ≤ n →
      List.Perm (groupWorklist p w).flatten w from h w.length w le_rfl
  intro n
  induction n with
  | zero =>
    intro w hw
    rw [List.eq_nil_of_length_eq_zero (Nat.le_zero.mp hw)]
    simp [groupWorklist]
  | succ n ih =>
    intro w hw
    cases w with
    | nil => simp [groupWorklist]
    | cons x rest =>
      have hlen : (rest.filter (fun y => !p x.2 y.2)).length ≤ n := by
        have := List.length_filter_le (fun y => !p x.2 y.2) rest
        simp only [List.length_cons] at hw
        omega
      have ihl := ih _ hlen
      simp only [groupWorklist, List.flatten_cons, List.cons_append]
      exact List.Perm.cons x
        ((List.Perm.append_left _ ihl).trans (List.filter_append_perm _ rest))

theorem groupWorklist_nonempty (p : QARecord → QARecord → Bool)
    (w : List (Nat × QARecord)) (g : List (Nat × QARecord))
    (hg : g ∈ groupWorklist p w) : g ≠ [] := by
  suffices h : ∀ (n : Nat) (w : List (Nat × QARecord)), w.length ≤ n →
      ∀ g ∈ groupWorklist p w, g ≠ [] from h w.length w le_rfl g hg
  intro n
  induction n with
  | zero =>
    intro w hw g hgg
    rw [List.eq_nil_of_length_eq_zero (Nat.le_zero.mp hw)] at hgg
    rw [groupWorklist] at hgg
    exact absurd hgg (List.not_mem_nil g)
  | succ n ih =>
    intro w hw g hgg
    cases w with
    | nil =>
      rw [groupWorklist] at hgg
      exact absurd hgg (List.not_mem_nil g)
    | cons x rest =>
      rw [groupWorklist] at hgg
      rcases List.mem_cons.mp hgg with h | h
      · rw [h]; exact List.cons_ne_nil _ _
      · have hlen : (rest.filter (fun y => !p x.2 y.2)).length ≤ n := by
          have := List.length_filter_le (fun y => !p x.2 y.2) rest
          simp only [List.length_cons] at hw
          omega
        exact ih _ hlen g h

theorem reorderGroups_length_le (gs : List (List QARecord)) :
    (reorderGroups gs).length ≤ gs.length := by
  unfold reorderGroups
  rw [List.length_append]
  induction gs with
  | nil => simp
  | cons g t ih =>
    by_cases h1 : (1 : Nat) < g.length
    · have h2 : ¬ (g.length = 1) := by omega
      rw [List.filter_cons, List.filter_cons, if_pos (decide_eq_true h1),
        if_neg (by simp [h2])]
      simp only [List.length_cons]
      omega
    · by_cases h2 : g.length = 1
      · rw [List.filter_cons, List.filter_cons, if_neg (by simp [h1]),
          if_pos (decide_eq_true h2)]
        simp only [List.length_cons]
        omega
      · rw [List.filter_cons, List.filter_cons, if_neg (by simp [h1]),
          if_neg (by simp [h2])]
        simp only [List.length_cons]
        omega

theorem reorderGroups_length_eq (gs : List (List QARecord))
    (h : ∀ g ∈ gs, g ≠ []) : (reorderGroups gs).length = gs.length := by
  unfold reorderGroups
  rw [List.length_append]
  induction gs with
  | nil => simp
  | cons g t ih =>
    have hg : g ≠ [] := h g (List.mem_cons_self g t)
    have hlen : 1 ≤ g.length := List.length_pos.mpr hg
    have iht := ih (fun g hgt => h g (List.mem_cons_of_mem _ hgt))
    by_cases h1 : (1 : Nat) < g.length
    · have h2 : ¬ (g.length = 1) := by omega
      rw [List.filter_cons, List.filter_cons, if_pos (decide_eq_true h1),
        if_neg (by simp [h2])]
      simp only [List.length_cons]
      omega
    · have h2 : g.length = 1 := by omega
      rw [List.filter_cons, List.filter_cons, if_neg (by simp [h1]),
        if_pos (decide_eq_true h2)]
      simp only [List.length_cons]
      omega

theorem reorderGroups_mem_flatten (gs : List (List QARecord)) (a : QARecord) :
    a ∈ (reorderGroups gs).flatten ↔ a ∈ gs.flatten := by
  simp only [reorderGroups, List.mem_flatten, List.mem_append, List.mem_filter,
    decide_eq_true_eq]
  constructor
  · rintro ⟨g, hg | hg, ha⟩
    · exact ⟨g, hg.1, ha⟩
    · exact ⟨g, hg.1, ha⟩
  · rintro ⟨g, hg, ha⟩
    have hne : g ≠ [] := by rintro rfl; exact absurd ha (List.not_mem_nil a)
    have hlen : 1 ≤ g.length := List.length_pos.mpr hne
    by_cases h1 : (1 : Nat) < g.length
    · exact ⟨g, Or.inl ⟨hg, h1⟩, ha⟩
    · exact ⟨g, Or.inr ⟨hg, by omega⟩, ha⟩

theorem reorderGroups_mem_nonempty (gs : List (List QARecord)) (g : List QARecord)
    (hg : g ∈ reorderGroups gs) : g ≠ [] := by
  simp only [reorderGroups, List.mem_append, List.mem_filter, decide_eq_true_eq] at hg
  rcases hg with ⟨_, h⟩ | ⟨_, h⟩
  · intro he; rw [he] at h; simp at h
  · intro he; rw [he] at h; simp at h

theorem reorderGroups_mem_sub (gs : List (List QARecord)) (g : List QARecord)
    (hg : g ∈ reorderGroups gs) : g ∈ gs := by
  simp only [reorderGroups, List.mem_append, List.mem_filter, decide_eq_true_eq] at hg
  rcases hg with ⟨h, _⟩ | ⟨h, _⟩ <;> exact h

theorem findIdx_id_of_nodup (u : List QARecord) (h : (idsOf u).Nodup) :
    ∀ (i : Nat) (r : QARecord), u.get? i = some r →
      u.findIdx? (fun x => x.id = r.id) = some i := by
  induction u with
  | nil => intro i r hget; simp at hget
  | cons x t ih =>
    simp only [idsOf, List.map_cons, List.nodup_cons] at h
    intro i r hget
    rw [List.findIdx?_cons]
    cases i with
    | zero =>
      have hx : x = r := by simpa using hget
      subst hx
      rw [if_pos (by simp)]
    | succ j =>
      have hget' : t.get? j = some r := hget
      have hrmem : r ∈ t := List.get?_mem hget'
      have hne : ¬ (x.id = r.id) := by
        intro he
        exact h.1 (he ▸ List.mem_map_of_mem _ hrmem)
      rw [if_neg (by simpa using hne), List.findIdx?_succ, ih h.2 j r hget']
      rfl

theorem llmFold_shape (u : List QARecord) (similar : List (List Nat)) :
    ∀ (acc : List (List QARecord) × List Nat) (g : List QARecord),
      g ∈ (similar.foldl (llmFoldStep u) acc).1 →
      g ∈ acc.1 ∨ ∃ idxs ∈ similar, g = idxs.filterMap (fun i => u.get? i) := by
  induction similar with
  | nil => intro acc g hg; exact Or.inl hg
  | cons idxs t ih =>
    intro acc g hg
    rcases ih (llmFoldStep u acc idxs) g hg with h | ⟨idxs', hi, he⟩
    · unfold llmFoldStep at h
      split at h
      · rcases List.mem_append.mp h with h' | h'
        · exact Or.inl h'
        · exact Or.inr ⟨idxs, List.mem_cons_self _ _, by simpa using h'⟩
      · exact Or.inl h
    · exact Or.inr ⟨idxs', List.mem_cons_of_mem _ hi, he⟩

theorem llmFold_mono (u : List QARecord) (similar : List (List Nat)) :
    ∀ (acc : List (List QARecord) × List Nat) (g : List QARecord),
      g ∈ acc.1 → g ∈ (similar.foldl (llmFoldStep u) acc).1 := by
  induction similar with
  | nil => intro acc g hg; exact hg
  | cons idxs t ih =>
    intro acc g hg
    apply ih (llmFoldStep u acc idxs) g
    unfold llmFoldStep
    split
    · exact List.mem_append_left _ hg
    · exact hg

theorem llmGroups1_flatten_sub (u : List QARecord)
    (an : List (List Nat) × List Nat) (a : QARecord)
    (ha : a ∈ (llmGroups1 u an).flatten) : a ∈ u := by
  rw [List.mem_flatten] at ha
  obtain ⟨g, hg, hag⟩ := ha
  unfold llmGroups1 at hg
  rcases List.mem_append.mp hg with h | h
  · rcases llmFold_shape u an.1 ([], an.2.dedup) g h with h' | ⟨idxs, _, he⟩
    · exact absurd h' (List.not_mem_nil g)
    · rw [he] at hag
      rw [List.mem_filterMap] at hag
      obtain ⟨i, _, hgi⟩ := hag
      exact List.get?_mem hgi
  · rw [List.mem_filterMap] at h
    obtain ⟨i, _, hgi⟩ := h
    cases hu : u.get? i with
    | none => rw [hu] at hgi; simp at hgi
    | some r =>
      rw [hu] at hgi
      simp only [Option.map_some'] at hgi
      have : g = [r] := by injection hgi with h'; exact h'.symm
      rw [this] at hag
      have : a = r := by simpa using hag
      rw [this]
      exact List.get?_mem hu

theorem llmGroupsFromAnalysis_flatten_sub (u : List QARecord)
    (an : List (List Nat) × List Nat) (a : QARecord)
    (ha : a ∈ (llmGroupsFromAnalysis u an).flatten) : a ∈ u := by
  unfold llmGroupsFromAnalysis at ha
  rw [reorderGroups_mem_flatten] at ha
  rw [List.mem_flatten] at ha
  obtain ⟨g, hg, hag⟩ := ha
  rcases List.mem_append.mp hg with h | h
  · exact llmGroups1_flatten_sub u an a (List.mem_flatten.mpr ⟨g, h, hag⟩)
  · rw [List.mem_filterMap] at h
    obtain ⟨i, _, hgi⟩ := h
    cases hu : u.get? i with
    | none => rw [hu] at hgi; simp at hgi
    | some r =>
      rw [hu] at hgi
      simp only [Option.map_some'] at hgi
      have hgr : g = [r] := by injection hgi with h'; exact h'.symm
      rw [hgr] at hag
      have : a = r := by simpa using hag
      rw [this]
      exact List.get?_mem hu

theorem llmGroupsFromAnalysis_covers (u : List QARecord)
    (an : List (List Nat) × List Nat) (h : (idsOf u).Nodup) (r : QARecord)
    (hr : r ∈ u) : r ∈ (llmGroupsFromAnalysis u an).flatten := by
  obtain ⟨i, hget⟩ := List.mem_iff_get?.mp hr
  unfold llmGroupsFromAnalysis
  rw [reorderGroups_mem_flatten, List.mem_flatten]
  by_cases hi : i ∈ llmProcessed u an
  · -- some group member has r's position as its first id match
    unfold llmProcessed at hi
    rw [List.mem_filterMap] at hi
    obtain ⟨qa, hqa, hfind⟩ := hi
    have hqau : qa ∈ u := llmGroups1_flatten_sub u an qa hqa
    obtain ⟨j, hgetj⟩ := List.mem_iff_get?.mp hqau
    have hj := findIdx_id_of_nodup u h j qa hgetj
    have hij : i = j := by
      rw [hj] at hfind
      injection hfind with h'
      exact h'.symm
    have : u.get? i = some qa := hij ▸ hgetj
    have hqar : qa = r := by
      rw [this] at hget
      injection hget
    rw [List.mem_flatten] at hqa
    obtain ⟨g, hg, hqag⟩ := hqa
    exact ⟨g, List.mem_append_left _ hg, hqar ▸ hqag⟩
  · -- swept as a singleton
    refine ⟨[r], List.mem_append_right _ ?_, List.mem_singleton_self r⟩
    rw [List.mem_filterMap]
    refine ⟨i, ?_, by rw [hget]; rfl⟩
    rw [List.mem_filter]
    have hlt : i < u.length := by
      rcases List.get?_eq_some.mp hget with ⟨hl, _⟩
      exact hl
    exact ⟨List.mem_range.mpr hlt, by simpa using hi⟩

theorem mem_enum_get (u : List QARecord) (pr : Nat × QARecord) (h : pr ∈ u.enum) :
    u.get? pr.1 = some pr.2 := by
  obtain ⟨i, x⟩ := pr
  rw [List.get?_eq_getElem?]
  exact List.mk_mem_enum_iff_getElem?.mp h

theorem filterMap_get_pairs (u : List QARecord) :
    ∀ (g : List (Nat × QARecord)), (∀ pr ∈ g, u.get? pr.1 = some pr.2) →
      (g.map Prod.fst).filterMap (fun i => u.get? i) = g.map Prod.snd := by
  intro g
  induction g with
  | nil => intro _; rfl
  | cons pr t ih =>
    intro h
    have hh := h pr (List.mem_cons_self pr t)
    simp only [List.map_cons, List.filterMap_cons, hh]
    rw [ih (fun q hq => h q (List.mem_cons_of_mem _ hq))]

theorem flatten_sublist {α : Type} {L1 L2 : List (List α)} (h : List.Sublist L1 L2) :
    List.Sublist L1.flatten L2.flatten := by
  induction h with
  | slnil => exact List.Sublist.refl _
  | cons a _ ih =>
    simp only [List.flatten_cons]
    exact ih.trans (List.sublist_append_right _ _)
  | cons₂ a _ ih =>
    simp only [List.flatten_cons]
    exact ih.append_left a

theorem two_le_flatten_length {α : Type} (L : List (List α))
    (h : ∀ g ∈ L, 2 ≤ g.length) : 2 * L.length ≤ L.flatten.length := by
  induction L with
  | nil => simp
  | cons g t ih =>
    simp only [List.flatten_cons, List.length_append, List.length_cons]
    have h1 := h g (List.mem_cons_self g t)
    have h2 := ih (fun g hg => h g (List.mem_cons_of_mem _ hg))
    omega

theorem filter_mem_length (n : Nat) (Q : List Nat) (hQ : Q.Nodup)
    (hsub : ∀ j ∈ Q, j < n) :
    ((List.range n).filter (fun i => i ∈ Q)).length = Q.length := by
  have hperm : List.Perm ((List.range n).filter (fun i => i ∈ Q)) Q := by
    rw [List.perm_ext_iff_of_nodup ((List.nodup_range n).filter _) hQ]
    intro a
    simp only [List.mem_filter, List.mem_range, decide_eq_true_eq]
    exact ⟨fun h => h.2, fun h => ⟨hsub a h, h⟩⟩
  exact hperm.length_eq

theorem filter_split_length (n : Nat) (p : Nat → Bool) :
    ((List.range n).filter p).length + ((List.range n).filter (fun i => !p i)).length
      = n := by
  have := (List.filter_append_perm p (List.range n)).length_eq
  simpa using this

theorem llmFold_all_accepted (u : List QARecord) (similar : List (List Nat))
    (h : ∀ idxs ∈ similar, 1 < (idxs.filterMap (fun i => u.get? i)).length) :
    ∀ (acc1 : List (List QARecord)),
      similar.foldl (llmFoldStep u) (acc1, []) =
        (acc1 ++ similar.map (fun idxs => idxs.filterMap (fun i => u.get? i)), []) := by
  induction similar with
  | nil => intro acc1; simp
  | cons idxs t ih =>
    intro acc1
    have hstep : llmFoldStep u (acc1, []) idxs =
        (acc1 ++ [idxs.filterMap (fun i => u.get? i)], []) := by
      unfold llmFoldStep
      rw [if_pos (h idxs (List.mem_cons_self _ _))]
      rfl
    simp only [List.foldl_cons, hstep]
    rw [ih (fun i hi => h i (List.mem_cons_of_mem _ hi))]
    simp

theorem fallback_indep_nil (simScore : QARecord → QARecord → ℚ)
    (u : List QARecord) : (fallbackSimilarityAnalysis simScore u).2 = [] := by
  unfold fallbackSimilarityAnalysis
  rw [List.filter_eq_nil_iff]
  intro i hi
  simp only [decide_eq_true_eq, not_not]
  rw [List.mem_range] at hi
  have hperm := groupWorklist_flatten_perm
    (fun a b => fallbackThreshold ≤ simScore a b) u.enum
  have : i ∈ (u.enum.map Prod.fst) := by
    rw [List.enum_map_fst]
    exact List.mem_range.mpr hi
  rw [List.mem_map] at this
  obtain ⟨pr, hpr, hfst⟩ := this
  rw [List.mem_map]
  exact ⟨pr, hperm.mem_iff.mpr hpr, hfst⟩

theorem filterMap_length_of_isSome {α β : Type} (f : α → Option β) (l : List α)
    (h : ∀ a ∈ l, (f a).isSome) : (l.filterMap f).length = l.length := by
  induction l with
  | nil => rfl
  | cons a t ih =>
    have ha := h a (List.mem_cons_self a t)
    cases hfa : f a with
    | none => rw [hfa] at ha; simp at ha
    | some b =>
      simp only [List.filterMap_cons, hfa, List.length_cons]
      rw [ih (fun x hx => h x (List.mem_cons_of_mem _ hx))]

/-- The LLM-group builder, fed multi-groups of valid, globally distinct indices and
an empty independent list, returns at most one group per input record: each accepted
group of size `k ≥ 2` replaces its `k` swept singletons by one group. -/
theorem llm_count_of_good_analysis (u : List QARecord) (h : (idsOf u).Nodup)
    (multi : List (List (Nat × QARecord)))
    (hvalid : ∀ grp ∈ multi, ∀ pr ∈ grp, u.get? pr.1 = some pr.2)
    (hlen2 : ∀ grp ∈ multi, 2 ≤ grp.length)
    (hfstN : ((multi.flatten).map Prod.fst).Nodup) :
    (llmGroupsFromAnalysis u (multi.map (fun g => g.map (·.1)), [])).length
      ≤ u.length := by
  have hrecover : ∀ grp ∈ multi,
      (grp.map (·.1)).filterMap (fun i => u.get? i) = grp.map Prod.snd :=
    fun grp hgrp => filterMap_get_pairs u grp (hvalid grp hgrp)
  have hacc : ∀ idxs ∈ multi.map (fun g => g.map (·.1)),
      1 < (idxs.filterMap (fun i => u.get? i)).length := by
    intro idxs hidxs
    rw [List.mem_map] at hidxs
    obtain ⟨grp, hgrp, he⟩ := hidxs
    rw [← he, hrecover grp hgrp, List.length_map]
    have := hlen2 grp hgrp
    omega
  have hg1 : llmGroups1 u (multi.map (fun g => g.map (·.1)), []) =
      multi.map (fun grp => grp.map Prod.snd) := by
    unfold llmGroups1 llmAcceptFold
    dsimp only
    rw [List.dedup_nil, llmFold_all_accepted u _ hacc]
    dsimp only
    simp only [List.filterMap_nil, List.append_nil, List.nil_append]
    rw [List.map_map]
    exact List.map_congr_left (fun grp hgrp => hrecover grp hgrp)
  have hgetmf : ∀ pr ∈ multi.flatten, u.get? pr.1 = some pr.2 := by
    intro pr hpr
    rw [List.mem_flatten] at hpr
    obtain ⟨grp, hgrp, hpg⟩ := hpr
    exact hvalid grp hgrp pr hpg
  have hmemP : ∀ j, j ∈ llmProcessed u (multi.map (fun g => g.map (·.1)), []) ↔
      j ∈ (multi.flatten).map Prod.fst := by
    intro j
    unfold llmProcessed
    rw [hg1,
      show (multi.map (fun grp => grp.map Prod.snd)).flatten
          = (multi.flatten).map Prod.snd from (List.map_flatten Prod.snd multi).symm]
    constructor
    · intro hj
      rw [List.mem_filterMap] at hj
      obtain ⟨qa, hqa, hfind⟩ := hj
      rw [List.mem_map] at hqa
      obtain ⟨pr, hpr, hsnd⟩ := hqa
      have hget : u.get? pr.1 = some pr.2 := hgetmf pr hpr
      have hidx := findIdx_id_of_nodup u h pr.1 pr.2 hget
      rw [hsnd] at hidx
      rw [hidx] at hfind
      injection hfind with hj'
      rw [List.mem_map]
      exact ⟨pr, hpr, hj'⟩
    · intro hj
      rw [List.mem_map] at hj
      obtain ⟨pr, hpr, hfst⟩ := hj
      rw [List.mem_filterMap]
      refine ⟨pr.2, List.mem_map_of_mem _ hpr, ?_⟩
      rw [findIdx_id_of_nodup u h pr.1 pr.2 (hgetmf pr hpr), hfst]
  have hPbound : ∀ j ∈ (multi.flatten).map Prod.fst, j < u.length := by
    intro j hj
    rw [List.mem_map] at hj
    obtain ⟨pr, hpr, hfst⟩ := hj
    rcases List.get?_eq_some.mp (hgetmf pr hpr) with ⟨hl, _⟩
    exact hfst ▸ hl
  have hne : ∀ g ∈ llmGroups1 u (multi.map (fun g => g.map (·.1)), []) ++
      ((List.range u.length).filter
        (fun i => ¬ i ∈ llmProcessed u (multi.map (fun g => g.map (·.1)), []))).filterMap
        (fun i => (u.get? i).map (fun r => [r])), g ≠ [] := by
    intro g hg
    rcases List.mem_append.mp hg with hgl | hgr
    · rw [hg1] at hgl
      rw [List.mem_map] at hgl
      obtain ⟨grp, hgrp, he⟩ := hgl
      have := hlen2 grp hgrp
      intro hnil
      rw [← he] at hnil
      rw [List.map_eq_nil_iff] at hnil
      rw [hnil] at this
      simp only [List.length_nil] at this
      omega
    · rw [List.mem_filterMap] at hgr
      obtain ⟨i, _, hgi⟩ := hgr
      cases hu : u.get? i with
      | none => rw [hu] at hgi; simp at hgi
      | some r =>
        rw [hu] at hgi
        simp only [Option.map_some'] at hgi
        intro hnil
        rw [hnil] at hgi
        simp at hgi
  unfold llmGroupsFromAnalysis
  rw [reorderGroups_length_eq _ hne, List.length_append, hg1, List.length_map]
  have hswlen : (((List.range u.length).filter
      (fun i => ¬ i ∈ llmProcessed u (multi.map (fun g => g.map (·.1)), []))).filterMap
      (fun i => (u.get? i).map (fun r => [r]))).length =
      ((List.range u.length).filter
        (fun i => ¬ i ∈ llmProcessed u (multi.map (fun g => g.map (·.1)), []))).length := by
    apply filterMap_length_of_isSome
    intro i hi
    have hir : i < u.length := List.mem_range.mp (List.mem_filter.mp hi).1
    cases hu : u.get? i with
    | none =>
      have := List.get?_eq_none.mp hu
      omega
    | some r => simp
  rw [hswlen]
  have hfiltereq : (List.range u.length).filter
      (fun i => ¬ i ∈ llmProcessed u (multi.map (fun g => g.map (·.1)), [])) =
      (List.range u.length).filter
        (fun i => !(decide (i ∈ (multi.flatten).map Prod.fst))) := by
    apply List.filter_congr
    intro i _
    rw [decide_not]
    congr 1
    exact decide_eq_decide.mpr (hmemP i)
  rw [hfiltereq]
  have hsplit := filter_split_length u.length
    (fun i => decide (i ∈ (multi.flatten).map Prod.fst))
  have hlenP := filter_mem_length u.length ((multi.flatten).map Prod.fst) hfstN hPbound
  have h2m := two_le_flatten_length multi hlen2
  have hPlen : ((multi.flatten).map Prod.fst).length = multi.flatten.length :=
    List.length_map _ _
  omega

/-- With the grouping oracle failed, the fallback analysis feeds the LLM-group
builder disjoint multi-groups of valid enumeration indices, so the result has at
most one group per input record. -/
theorem llm_fallback_count (simScore : QARecord → QARecord → ℚ)
    (u : List QARecord) (h : (idsOf u).Nodup) :
    (llmGroupsFromAnalysis u (fallbackSimilarityAnalysis simScore u)).length
      ≤ u.length := by
  have han : fallbackSimilarityAnalysis simScore u =
      (((groupWorklist (fun a b => fallbackThreshold ≤ simScore a b) u.enum).filter
          (fun g => 1 < g.length)).map (fun g => g.map (·.1)), []) :=
    Prod.ext rfl (fallback_indep_nil simScore u)
  rw [han]
  have hperm := groupWorklist_flatten_perm
    (fun a b => fallbackThreshold ≤ simScore a b) u.enum
  apply llm_count_of_good_analysis u h
  · intro grp hgrp pr hpr
    exact mem_enum_get u pr (hperm.subset
      (List.mem_flatten.mpr ⟨grp, (List.mem_filter.mp hgrp).1, hpr⟩))
  · intro grp hgrp
    have := (List.mem_filter.mp hgrp).2
    simp only [decide_eq_true_eq] at this
    omega
  · have hsub : List.Sublist (((groupWorklist
        (fun a b => fallbackThreshold ≤ simScore a b) u.enum).filter
        (fun g => 1 < g.length)).flatten.map Prod.fst)
        (((groupWorklist (fun a b => fallbackThreshold ≤ simScore a b)
          u.enum).flatten).map Prod.fst) :=
      (flatten_sublist (List.filter_sublist _)).map _
    apply hsub.nodup
    apply (hperm.map Prod.fst).nodup_iff.mpr
    rw [List.enum_map_fst]
    exact List.nodup_range u.length

theorem count_le_flatten_length {α : Type} (L : List (List α))
    (h : ∀ g ∈ L, g ≠ []) : L.length ≤ L.flatten.length := by
  induction L with
  | nil => simp
  | cons g t ih =>
    simp only [List.flatten_cons, List.length_append, List.length_cons]
    have h1 : 1 ≤ g.length := List.length_pos.mpr (h g (List.mem_cons_self g t))
    have h2 := ih (fun g hg => h g (List.mem_cons_of_mem _ hg))
    omega

theorem groupWorklist_length_le (p : QARecord → QARecord → Bool)
    (w : List (Nat × QARecord)) : (groupWorklist p w).length ≤ w.length := by
  have h1 := count_le_flatten_length (groupWorklist p w) (groupWorklist_nonempty p w)
  have h2 := (groupWorklist_flatten_perm p w).length_eq
  omega

theorem traditional_count (simScore : QARecord → QARecord → ℚ) (θ : ℚ)
    (u : List QARecord) :
    (findSimilarGroupsTraditional simScore θ u).length ≤ u.length := by
  unfold findSimilarGroupsTraditional
  calc (reorderGroups ((groupWorklist (fun a b => θ ≤ simScore a b) u.enum).map
          (fun g => g.map (·.2)))).length
      ≤ ((groupWorklist (fun a b => θ ≤ simScore a b) u.enum).map
          (fun g => g.map (·.2))).length := reorderGroups_length_le _
    _ = (groupWorklist (fun a b => θ ≤ simScore a b) u.enum).length :=
        List.length_map _ _
    _ ≤ u.enum.length := groupWorklist_length_le _ _
    _ = u.length := List.enum_length

theorem batchOptimized_some_len
    (groupO : List QARecord → Option (List (List Nat) × List Nat))
    (simScore : QARecord → QARecord → ℚ) (u : List QARecord)
    (gs : List (List QARecord)) (h : batchOptimizedGroups groupO simScore u = some gs) :
    gs.length ≤ 1 := by
  unfold batchOptimizedGroups at h
  split at h
  · exact absurd h (by simp)
  · rename_i hle
    injection h with h'
    rw [← h']
    have := reorderGroups_length_le
      (((chunk50 u).foldl (batchFoldStep groupO simScore) ([], [])).1)
    omega

theorem findSimilarGroups_fail_count (simScore : QARecord → QARecord → ℚ)
    (θ : ℚ) (u : List QARecord) (h : (idsOf u).Nodup) :
    (findSimilarGroups (fun _ => none) simScore u θ true).length ≤ u.length := by
  unfold findSimilarGroups
  by_cases hnil : u = []
  · rw [if_pos hnil]; simp
  rw [if_neg hnil]
  by_cases h1 : u.length = 1
  · rw [if_pos h1]; simp only [List.length_singleton]; omega
  rw [if_neg h1, if_pos rfl]
  by_cases h100 : u.length ≤ maxFullContextSize
  · rw [if_pos h100]
    have h2 : ¬ (u.length < 2) := by
      have : u.length ≠ 0 := fun he => hnil (List.eq_nil_of_length_eq_zero he)
      omega
    unfold calcLlmSimilarityBatch
    rw [if_neg h2]
    exact llm_fallback_count simScore u h
  · rw [if_neg h100]
    cases hb : batchOptimizedGroups (fun _ => none) simScore u with
    | none => exact traditional_count simScore θ u
    | some gs =>
      have hlen := batchOptimized_some_len _ simScore u gs hb
      have hlen0 : u.length ≠ 0 := fun he => hnil (List.eq_nil_of_length_eq_zero he)
      show gs.length ≤ u.length
      omega

theorem compactFoldStep_length (mergeLLM : List QARecord → Option String)
    (fresh : List QARecord → String) (now : Nat) (acc : List QARecord × Nat)
    (group : List QARecord) :
    (compactFoldStep mergeLLM fresh now acc group).1.length ≤ acc.1.length + 1 := by
  unfold compactFoldStep
  split
  · cases hm : mergeSimilarQaPairs mergeLLM fresh now group with
    | some merged => simp
    | none =>
      cases group with
      | nil => simp
      | cons g0 gt => simp
  · cases group with
    | nil => simp
    | cons g0 gt => simp

theorem compact_fold_length_le (mergeLLM : List QARecord → Option String)
    (fresh : List QARecord → String) (now : Nat) (gs : List (List QARecord)) :
    ∀ (acc : List QARecord × Nat),
      ((gs.foldl (compactFoldStep mergeLLM fresh now) acc).1).length
        ≤ acc.1.length + gs.length := by
  induction gs with
  | nil => intro acc; simp
  | cons g t ih =>
    intro acc
    simp only [List.foldl_cons, List.length_cons]
    have h1 := compactFoldStep_length mergeLLM fresh now acc g
    have h2 := ih (compactFoldStep mergeLLM fresh now acc g)
    omega

theorem dedup_fold_length (l : List QARecord) :
    ∀ (acc : List QARecord × List QARecord),
      ((l.foldl dedupStep acc).1).length ≤ acc.1.length + l.length := by
  induction l with
  | nil => intro acc; simp
  | cons q t ih =>
    intro acc
    simp only [List.foldl_cons, List.length_cons]
    have hstep : (dedupStep acc q).1.length ≤ acc.1.length + 1 := by
      cases hf : acc.1.find? (fun r => normKey r = normKey q) with
      | none =>
        rw [dedupStep_eq_of_none acc q hf]
        simp
      | some ex =>
        by_cases hlt : confOf ex < confOf q
        · rw [dedupStep_eq_of_lt acc q ex hf hlt]
          have hm : ex ∈ acc.1 := List.mem_of_find?_eq_some hf
          simp only [List.length_append, List.length_cons, List.length_nil]
          have := List.length_erase_of_mem hm
          omega
        · rw [dedupStep_eq_of_ge acc q ex hf hlt]
          dsimp only
          omega
    have := ih (dedupStep acc q)
    omega

theorem subperm_map (f : QARecord → String) {l1 l2 : List QARecord}
    (h : List.Subperm l1 l2) : List.Subperm (l1.map f) (l2.map f) := by
  obtain ⟨l, hp, hs⟩ := h
  exact ⟨l.map f, hp.map f, hs.map f⟩

theorem subperm_append_r (r : List QARecord) {l1 l2 : List QARecord}
    (h : List.Subperm l1 l2) : List.Subperm (l1 ++ r) (l2 ++ r) := by
  obtain ⟨l, hp, hs⟩ := h
  exact ⟨l ++ r, hp.append_right r, hs.append_right r⟩

/-- The kept list is, up to order, a subset of what has been consumed. -/
theorem dedup_fold_subperm (l : List QARecord) :
    ∀ (acc : List QARecord × List QARecord),
      List.Subperm ((l.foldl dedupStep acc).1) (acc.1 ++ l) := by
  induction l with
  | nil =>
    intro acc
    rw [List.append_nil]
    exact List.Subperm.refl _
  | cons q t ih =>
    intro acc
    have hstep : List.Subperm ((dedupStep acc q).1) (acc.1 ++ [q]) := by
      cases hf : acc.1.find? (fun r => normKey r = normKey q) with
      | none =>
        rw [dedupStep_eq_of_none acc q hf]
      | some ex =>
        by_cases hlt : confOf ex < confOf q
        · rw [dedupStep_eq_of_lt acc q ex hf hlt]
          exact subperm_append_r [q] (List.erase_sublist ex acc.1).subperm
        · rw [dedupStep_eq_of_ge acc q ex hf hlt]
          exact (List.sublist_append_left acc.1 [q]).subperm
    refine (ih (dedupStep acc q)).trans ?_
    have h2 := subperm_append_r t hstep
    rw [List.append_assoc, List.singleton_append] at h2
    exact h2

theorem dedup_ids_nodup (l : List QARecord) (h : (idsOf l).Nodup) :
    (idsOf (detectExactDuplicates l).1).Nodup := by
  have hsub := dedup_fold_subperm l ([], [])
  simp only [List.nil_append] at hsub
  obtain ⟨l', hp, hs⟩ := subperm_map (·.id) hsub
  exact hp.nodup_iff.mp (hs.nodup h)

/-- C5 — with every oracle call failing (grouping oracle and merge oracle both
return failure), `compact_qa_pairs` degrades to the deterministic heuristic
fallback, reports success, and returns at most as many records as it was given;
all exceptions are handled below the operation boundary. -/
theorem compact_all_oracles_failing (simScore : QARecord → QARecord → ℚ)
    (fresh : List QARecord → String) (now : Nat) (l : List QARecord) (θ : ℚ)
    (h : (idsOf l).Nodup) :
    (compactQaPairs (fun _ => none) simScore (fun _ => none) fresh now l θ
        true).success = true ∧
    (compactQaPairs (fun _ => none) simScore (fun _ => none) fresh now l θ
        true).finalCount ≤ l.length := by
  refine ⟨rfl, ?_⟩
  show ((findSimilarGroups (fun _ => none) simScore (detectExactDuplicates l).1 θ
      true).foldl (compactFoldStep (fun _ => none) fresh now) ([], 0)).1.length
      ≤ l.length
  have h1 := compact_fold_length_le (fun _ => none) fresh now
    (findSimilarGroups (fun _ => none) simScore (detectExactDuplicates l).1 θ true)
    ([], 0)
  have h2 := findSimilarGroups_fail_count simScore θ (detectExactDuplicates l).1
    (dedup_ids_nodup l h)
  have h3 : (detectExactDuplicates l).1.length ≤ l.length := by
    have := dedup_fold_length l ([], [])
    simpa [detectExactDuplicates] using this
  simp only [List.length_nil, Nat.zero_add] at h1
  omega

/-- C5 witness: two concrete records, score oracle constant 0, all LLM calls
failing. -/
theorem compact_all_oracles_failing_witness :
    (compactQaPairs (fun _ => none) (fun _ _ => 0) (fun _ => none) (fun _ => "") 0
        [wRec "a", wRec "b"] fallbackThreshold true).success = true ∧
    (compactQaPairs (fun _ => none) (fun _ _ => 0) (fun _ => none) (fun _ => "") 0
        [wRec "a", wRec "b"] fallbackThreshold true).finalCount
      ≤ [wRec "a", wRec "b"].length :=
  compact_all_oracles_failing (fun _ _ => 0) (fun _ => "") 0 [wRec "a", wRec "b"]
    fallbackThreshold (by decide)

theorem chunk50_flatten (l : List QARecord) : (chunk50 l).flatten = l := by
  suffices h : ∀ (n : Nat) (l : List QARecord), l.length ≤ n →
      (chunk50 l).flatten = l from h l.length l le_rfl
  intro n
  induction n with
  | zero =>
    intro l hl
    rw [List.eq_nil_of_length_eq_zero (Nat.le_zero.mp hl)]
    simp [chunk50]
  | succ n ih =>
    intro l hl
    cases l with
    | nil => simp [chunk50]
    | cons x rest =>
      rw [chunk50]
      simp only [List.flatten_cons]
      rw [ih ((x :: rest).drop 50)
        (by simp only [List.length_drop, List.length_cons]; simp at hl; omega)]
      exact List.take_append_drop 50 (x :: rest)

theorem traditional_flatten_mem (simScore : QARecord → QARecord → ℚ) (θ : ℚ)
    (u : List QARecord) (r : QARecord) :
    r ∈ (findSimilarGroupsTraditional simScore θ u).flatten ↔ r ∈ u := by
  unfold findSimilarGroupsTraditional
  rw [reorderGroups_mem_flatten,
    show ((groupWorklist (fun a b => θ ≤ simScore a b) u.enum).map
        (fun g => g.map (·.2))).flatten =
      ((groupWorklist (fun a b => θ ≤ simScore a b) u.enum).flatten).map Prod.snd from
      (List.map_flatten Prod.snd _).symm]
  have hperm := (groupWorklist_flatten_perm (fun a b => θ ≤ simScore a b) u.enum).map
    Prod.snd
  rw [hperm.mem_iff, List.enum_map_snd]

theorem batchFold_mono (groupO : List QARecord → Option (List (List Nat) × List Nat))
    (simScore : QARecord → QARecord → ℚ) (chunks : List (List QARecord)) :
    ∀ (acc : List (List QARecord) × List String) (a : QARecord),
      a ∈ acc.1.flatten →
      a ∈ ((chunks.foldl (batchFoldStep groupO simScore) acc).1).flatten := by
  induction chunks with
  | nil => intro acc a ha; exact ha
  | cons ch t ih =>
    intro acc a ha
    apply ih (batchFoldStep groupO simScore acc ch) a
    unfold batchFoldStep
    split
    · exact ha
    · dsimp only
      rw [List.flatten_append]
      exact List.mem_append_left _ ha

theorem batchFold_flatten_sub
    (groupO : List QARecord → Option (List (List Nat) × List Nat))
    (simScore : QARecord → QARecord → ℚ) (chunks : List (List QARecord)) :
    ∀ (acc : List (List QARecord) × List String) (a : QARecord),
      a ∈ ((chunks.foldl (batchFoldStep groupO simScore) acc).1).flatten →
      a ∈ acc.1.flatten ∨ a ∈ chunks.flatten := by
  induction chunks with
  | nil => intro acc a ha; exact Or.inl ha
  | cons ch t ih =>
    intro acc a ha
    rcases ih (batchFoldStep groupO simScore acc ch) a ha with h | h
    · unfold batchFoldStep at h
      split at h
      · exact Or.inl h
      · dsimp only at h
        rw [List.flatten_append] at h
        rcases List.mem_append.mp h with h' | h'
        · exact Or.inl h'
        · right
          simp only [List.flatten_cons]
          apply List.mem_append_left
          have := llmGroupsFromAnalysis_flatten_sub _ _ a h'
          exact List.mem_of_mem_filter this
    · right
      simp only [List.flatten_cons]
      exact List.mem_append_right _ h

theorem idNodup_inj {l : List QARecord} (h : (idsOf l).Nodup) {x y : QARecord}
    (hx : x ∈ l) (hy : y ∈ l) (hid : x.id = y.id) : x = y :=
  List.inj_on_of_nodup_map (by simpa [idsOf] using h) hx hy hid

theorem batchFold_covers (u : List QARecord) (hN : (idsOf u).Nodup)
    (groupO : List QARecord → Option (List (List Nat) × List Nat))
    (simScore : QARecord → QARecord → ℚ) (chunks : List (List QARecord)) :
    ∀ (acc : List (List QARecord) × List String),
      (∀ a ∈ acc.1.flatten, a ∈ u) →
      (∀ a ∈ chunks.flatten, a ∈ u) →
      ((idsOf chunks.flatten).Nodup) →
      (∀ s ∈ acc.2, ∃ y ∈ acc.1.flatten, y.id = s) →
      ∀ r, (r ∈ acc.1.flatten ∨ r ∈ chunks.flatten) →
        r ∈ ((chunks.foldl (batchFoldStep groupO simScore) acc).1).flatten := by
  induction chunks with
  | nil =>
    intro acc _ _ _ _ r hr
    rcases hr with h | h
    · exact h
    · exact absurd h (by simp)
  | cons ch t ih =>
    intro acc haccu hchu hchN hids r hr
    have hchu' : ∀ a ∈ ch, a ∈ u := by
      intro a ha
      exact hchu a (by simp only [List.flatten_cons]; exact List.mem_append_left _ ha)
    have htu : ∀ a ∈ t.flatten, a ∈ u := by
      intro a ha
      exact hchu a (by simp only [List.flatten_cons]; exact List.mem_append_right _ ha)
    have hchN' : (idsOf ch).Nodup ∧ (idsOf t.flatten).Nodup := by
      simp only [List.flatten_cons, idsOf, List.map_append, List.nodup_append] at hchN
      exact ⟨hchN.1, hchN.2.1⟩
    by_cases hemp : ch.filter (fun qa => ¬ acc.2.contains qa.id) = []
    · have hstep : batchFoldStep groupO simScore acc ch = acc := by
        unfold batchFoldStep
        rw [if_pos hemp]
      have hcov : ∀ a ∈ ch, a ∈ acc.1.flatten := by
        intro a ha
        have hnotin : ¬ (¬ acc.2.contains a.id = true) := by
          intro hc
          have hmem : a ∈ ch.filter (fun qa => ¬ acc.2.contains qa.id) :=
            List.mem_filter.mpr ⟨ha, by simpa using hc⟩
          rw [hemp] at hmem
          exact absurd hmem (List.not_mem_nil a)
        have hid : a.id ∈ acc.2 := by simpa using not_not.mp hnotin
        obtain ⟨y, hy, hyid⟩ := hids a.id hid
        have hya : y = a := idNodup_inj hN (haccu y hy) (hchu' a ha) hyid
        exact hya ▸ hy
      rw [List.foldl_cons, hstep]
      apply ih acc haccu htu hchN'.2 hids r
      rcases hr with h | h
      · exact Or.inl h
      · simp only [List.flatten_cons] at h
        rcases List.mem_append.mp h with h' | h'
        · exact Or.inl (hcov r h')
        · exact Or.inr h'
    · have hstep : batchFoldStep groupO simScore acc ch =
          (acc.1 ++ llmGroupsFromAnalysis
              (ch.filter (fun qa => ¬ acc.2.contains qa.id))
              (calcLlmSimilarityBatch groupO simScore
                (ch.filter (fun qa => ¬ acc.2.contains qa.id))),
           acc.2 ++ (llmGroupsFromAnalysis
              (ch.filter (fun qa => ¬ acc.2.contains qa.id))
              (calcLlmSimilarityBatch groupO simScore
                (ch.filter (fun qa => ¬ acc.2.contains qa.id)))).flatten.map (·.id)) := by
        unfold batchFoldStep
        rw [if_neg hemp]
      have hllmsub : ∀ a ∈ (llmGroupsFromAnalysis
          (ch.filter (fun qa => ¬ acc.2.contains qa.id))
          (calcLlmSimilarityBatch groupO simScore
            (ch.filter (fun qa => ¬ acc.2.contains qa.id)))).flatten,
          a ∈ ch := by
        intro a ha
        exact List.mem_of_mem_filter (llmGroupsFromAnalysis_flatten_sub _ _ a ha)
      have haccu' : ∀ a ∈ (batchFoldStep groupO simScore acc ch).1.flatten, a ∈ u := by
        intro a ha
        rw [hstep] at ha
        dsimp only at ha
        rw [List.flatten_append] at ha
        rcases List.mem_append.mp ha with h' | h'
        · exact haccu a h'
        · exact hchu' a (hllmsub a h')
      have hids' : ∀ s ∈ (batchFoldStep groupO simScore acc ch).2,
          ∃ y ∈ (batchFoldStep groupO simScore acc ch).1.flatten, y.id = s := by
        intro s hs
        rw [hstep] at hs ⊢
        dsimp only at hs ⊢
        rw [List.flatten_append]
        rcases List.mem_append.mp hs with h' | h'
        · obtain ⟨y, hy, hyid⟩ := hids s h'
          exact ⟨y, List.mem_append_left _ hy, hyid⟩
        · rw [List.mem_map] at h'
          obtain ⟨y, hy, hyid⟩ := h'
          exact ⟨y, List.mem_append_right _ hy, hyid⟩
      rw [List.foldl_cons]
      apply ih (batchFoldStep groupO simScore acc ch) haccu' htu hchN'.2 hids' r
      rcases hr with h | h
      · left
        rw [hstep]
        dsimp only
        rw [List.flatten_append]
        exact List.mem_append_left _ h
      · simp only [List.flatten_cons] at h
        rcases List.mem_append.mp h with h' | h'
        · by_cases hin : r ∈ ch.filter (fun qa => ¬ acc.2.contains qa.id)
          · left
            rw [hstep]
            dsimp only
            rw [List.flatten_append]
            apply List.mem_append_right
            apply llmGroupsFromAnalysis_covers _ _ ?_ r hin
            · have hsub : List.Sublist
                  (idsOf (ch.filter (fun qa => ¬ acc.2.contains qa.id))) (idsOf ch) :=
                (List.filter_sublist ch).map _
              exact hsub.nodup hchN'.1
          · left
            have hnotin : ¬ (¬ acc.2.contains r.id = true) := by
              intro hc
              exact hin (List.mem_filter.mpr ⟨h', by simpa using hc⟩)
            have hid : r.id ∈ acc.2 := by simpa using not_not.mp hnotin
            obtain ⟨y, hy, hyid⟩ := hids r.id hid
            have hyr : y = r := idNodup_inj hN (haccu y hy) (hchu' r h') hyid
            rw [hstep]
            dsimp only
            rw [List.flatten_append]
            exact List.mem_append_left _ (hyr ▸ hy)
        · exact Or.inr h'

/-! ## Compaction id-conservation lemmas -/

theorem findSimilarGroups_mem
    (groupO : List QARecord → Option (List (List Nat) × List Nat))
    (simScore : QARecord → QARecord → ℚ) (u : List QARecord) (θ : ℚ)
    (useLlm : Bool) (hN : (idsOf u).Nodup) (r : QARecord) :
    r ∈ (findSimilarGroups groupO simScore u θ useLlm).flatten ↔ r ∈ u := by
  unfold findSimilarGroups
  by_cases he : u = []
  · rw [if_pos he]; subst he; simp
  rw [if_neg he]
  by_cases h1 : u.length = 1
  · rw [if_pos h1]; simp
  rw [if_neg h1]
  cases useLlm with
  | false =>
    rw [if_neg (by simp)]
    exact traditional_flatten_mem simScore θ u r
  | true =>
    rw [if_pos rfl]
    by_cases hle : u.length ≤ maxFullContextSize
    · rw [if_pos hle]
      constructor
      · exact llmGroupsFromAnalysis_flatten_sub u _ r
      · exact llmGroupsFromAnalysis_covers u _ hN r
    · rw [if_neg hle]
      cases hb : batchOptimizedGroups groupO simScore u with
      | none => exact traditional_flatten_mem simScore θ u r
      | some gs =>
        unfold batchOptimizedGroups at hb
        split at hb
        · exact absurd hb (by simp)
        · injection hb with hgs
          subst hgs
          rw [reorderGroups_mem_flatten]
          constructor
          · intro hrf
            rcases batchFold_flatten_sub groupO simScore (chunk50 u) ([], []) r hrf
              with h | h
            · exact absurd h (by simp)
            · rw [chunk50_flatten] at h; exact h
          · intro hru
            apply batchFold_covers u hN groupO simScore (chunk50 u) ([], [])
            · intro a ha; exact absurd ha (by simp)
            · intro a ha; rw [chunk50_flatten] at ha; exact ha
            · rw [chunk50_flatten]; exact hN
            · intro s hs; exact absurd hs (by simp)
            · right; rw [chunk50_flatten]; exact hru

theorem findSimilarGroups_groups_nonempty
    (groupO : List QARecord → Option (List (List Nat) × List Nat))
    (simScore : QARecord → QARecord → ℚ) (u : List QARecord) (θ : ℚ)
    (useLlm : Bool) (g : List QARecord)
    (hg : g ∈ findSimilarGroups groupO simScore u θ useLlm) : g ≠ [] := by
  unfold findSimilarGroups at hg
  by_cases he : u = []
  · rw [if_pos he] at hg; exact absurd hg (List.not_mem_nil g)
  rw [if_neg he] at hg
  by_cases h1 : u.length = 1
  · rw [if_pos h1] at hg
    have : g = u := by simpa using hg
    exact this ▸ he
  rw [if_neg h1] at hg
  cases useLlm with
  | false =>
    rw [if_neg (by simp)] at hg
    unfold findSimilarGroupsTraditional at hg
    exact reorderGroups_mem_nonempty _ g hg
  | true =>
    rw [if_pos rfl] at hg
    by_cases hle : u.length ≤ maxFullContextSize
    · rw [if_pos hle] at hg
      unfold llmGroupsFromAnalysis at hg
      exact reorderGroups_mem_nonempty _ g hg
    · rw [if_neg hle] at hg
      cases hb : batchOptimizedGroups groupO simScore u with
      | none =>
        rw [hb] at hg
        unfold findSimilarGroupsTraditional at hg
        exact reorderGroups_mem_nonempty _ g hg
      | some gs =>
        rw [hb] at hg
        unfold batchOptimizedGroups at hb
        split at hb
        · exact absurd hb (by simp)
        · injection hb with hgs
          subst hgs
          exact reorderGroups_mem_nonempty _ g hg

theorem compactFoldStep_fst (mergeLLM : List QARecord → Option String)
    (fresh : List QARecord → String) (now : Nat) (acc : List QARecord × Nat)
    (group : List QARecord) :
    (compactFoldStep mergeLLM fresh now acc group).1 =
      acc.1 ++ (compactOut mergeLLM fresh now group).toList := by
  unfold compactFoldStep compactOut
  split
  · cases hm : mergeSimilarQaPairs mergeLLM fresh now group with
    | some merged => simp
    | none =>
      cases group with
      | nil => simp
      | cons g0 gt => simp
  · cases group with
    | nil => simp
    | cons g0 gt => simp

theorem compact_fold_fst (mergeLLM : List QARecord → Option String)
    (fresh : List QARecord → String) (now : Nat) (gs : List (List QARecord)) :
    ∀ (acc : List QARecord × Nat),
      (gs.foldl (compactFoldStep mergeLLM fresh now) acc).1 =
        acc.1 ++ gs.filterMap (compactOut mergeLLM fresh now) := by
  induction gs with
  | nil => intro acc; simp
  | cons g t ih =>
    intro acc
    rw [List.foldl_cons, ih (compactFoldStep mergeLLM fresh now acc g),
      compactFoldStep_fst, List.filterMap_cons]
    cases compactOut mergeLLM fresh now g <;> simp

theorem mergeSimilar_originalIds (mergeLLM : List QARecord → Option String)
    (fresh : List QARecord → String) (now : Nat) (g : List QARecord) (m : QARecord)
    (hg : 1 < g.length) (hm : mergeSimilarQaPairs mergeLLM fresh now g = some m) :
    m.originalIds = idsOf g := by
  unfold mergeSimilarQaPairs at hm
  rw [if_neg (by omega)] at hm
  cases hllm : mergeLLM g with
  | none => rw [hllm] at hm; exact absurd hm (by simp)
  | some txt =>
    rw [hllm] at hm
    have hm2 : parseSimpleMergeResponse txt g (fresh g) now = some m := hm
    unfold parseSimpleMergeResponse at hm2
    rcases hp : parseMergeLines (pySplitLines (pyStrip txt)) with ⟨oq, oa⟩
    rw [hp] at hm2
    cases oq with
    | none => exact absurd hm2 (by simp)
    | some q =>
      cases oa with
      | none => exact absurd hm2 (by simp)
      | some a =>
        have hm3 : (if q ≠ "" ∧ a ≠ "" then
            some (⟨fresh g, q, a, combineSourceFiles g, now, "merged", [],
              some mergedConfidence, g.map (·.id)⟩ : QARecord)
          else none) = some m := hm2
        by_cases hqa : q ≠ "" ∧ a ≠ ""
        · rw [if_pos hqa] at hm3
          have hm' := Option.some.inj hm3
          rw [← hm']
          rfl
        · rw [if_neg hqa] at hm3; exact absurd hm3 (by simp)

theorem dedupStep_mem_src (acc : List QARecord × List QARecord) (q r : QARecord)
    (h : r ∈ (dedupStep acc q).1 ∨ r ∈ (dedupStep acc q).2) :
    r ∈ acc.1 ∨ r ∈ acc.2 ∨ r = q := by
  cases hf : acc.1.find? (fun x => normKey x = normKey q) with
  | none =>
    rw [dedupStep_eq_of_none acc q hf] at h
    rcases h with h | h
    · rcases (by simpa using h : r ∈ acc.1 ∨ r = q) with h2 | h2
      · exact Or.inl h2
      · exact Or.inr (Or.inr h2)
    · exact Or.inr (Or.inl h)
  | some ex =>
    have hex : ex ∈ acc.1 := List.mem_of_find?_eq_some hf
    by_cases hlt : confOf ex < confOf q
    · rw [dedupStep_eq_of_lt acc q ex hf hlt] at h
      rcases h with h | h
      · rcases (by simpa using h : r ∈ acc.1.erase ex ∨ r = q) with h2 | h2
        · exact Or.inl (List.mem_of_mem_erase h2)
        · exact Or.inr (Or.inr h2)
      · rcases (by simpa using h : r ∈ acc.2 ∨ r = ex) with h2 | h2
        · exact Or.inr (Or.inl h2)
        · exact Or.inl (h2 ▸ hex)
    · rw [dedupStep_eq_of_ge acc q ex hf hlt] at h
      rcases h with h | h
      · exact Or.inl h
      · rcases (by simpa using h : r ∈ acc.2 ∨ r = q) with h2 | h2
        · exact Or.inr (Or.inl h2)
        · exact Or.inr (Or.inr h2)

theorem dedup_fold_mem_src (l : List QARecord) :
    ∀ (acc : List QARecord × List QARecord) (r : QARecord),
      (r ∈ (l.foldl dedupStep acc).1 ∨ r ∈ (l.foldl dedupStep acc).2) →
      r ∈ acc.1 ∨ r ∈ acc.2 ∨ r ∈ l := by
  induction l with
  | nil =>
    intro acc r h
    rcases h with h | h
    · exact Or.inl h
    · exact Or.inr (Or.inl h)
  | cons q t ih =>
    intro acc r h
    simp only [List.foldl_cons] at h
    rcases ih (dedupStep acc q) r h with h1 | h1 | h1
    · rcases dedupStep_mem_src acc q r (Or.inl h1) with h2 | h2 | h2
      · exact Or.inl h2
      · exact Or.inr (Or.inl h2)
      · exact Or.inr (Or.inr (by rw [h2]; exact List.mem_cons_self q t))
    · rcases dedupStep_mem_src acc q r (Or.inr h1) with h2 | h2 | h2
      · exact Or.inl h2
      · exact Or.inr (Or.inl h2)
      · exact Or.inr (Or.inr (by rw [h2]; exact List.mem_cons_self q t))
    · exact Or.inr (Or.inr (List.mem_cons_of_mem q h1))

theorem dedupStep_persist_mem (acc : List QARecord × List QARecord) (q r : QARecord)
    (h : r ∈ acc.1 ∨ r ∈ acc.2) :
    r ∈ (dedupStep acc q).1 ∨ r ∈ (dedupStep acc q).2 := by
  cases hf : acc.1.find? (fun x => normKey x = normKey q) with
  | none =>
    rw [dedupStep_eq_of_none acc q hf]
    rcases h with h | h
    · exact Or.inl (List.mem_append_left _ h)
    · exact Or.inr h
  | some ex =>
    by_cases hlt : confOf ex < confOf q
    · rw [dedupStep_eq_of_lt acc q ex hf hlt]
      rcases h with h | h
      · by_cases hre : r = ex
        · exact Or.inr (List.mem_append_right _ (by rw [hre]; exact List.mem_singleton_self ex))
        · exact Or.inl (List.mem_append_left _ ((List.mem_erase_of_ne hre).mpr h))
      · exact Or.inr (List.mem_append_left _ h)
    · rw [dedupStep_eq_of_ge acc q ex hf hlt]
      rcases h with h | h
      · exact Or.inl h
      · exact Or.inr (List.mem_append_left _ h)

theorem dedupStep_new_mem (acc : List QARecord × List QARecord) (q : QARecord) :
    q ∈ (dedupStep acc q).1 ∨ q ∈ (dedupStep acc q).2 := by
  cases hf : acc.1.find? (fun x => normKey x = normKey q) with
  | none =>
    rw [dedupStep_eq_of_none acc q hf]
    exact Or.inl (List.mem_append_right _ (List.mem_singleton_self q))
  | some ex =>
    by_cases hlt : confOf ex < confOf q
    · rw [dedupStep_eq_of_lt acc q ex hf hlt]
      exact Or.inl (List.mem_append_right _ (List.mem_singleton_self q))
    · rw [dedupStep_eq_of_ge acc q ex hf hlt]
      exact Or.inr (List.mem_append_right _ (List.mem_singleton_self q))

theorem dedup_fold_persist_mem (l : List QARecord) :
    ∀ (acc : List QARecord × List QARecord) (r : QARecord),
      (r ∈ acc.1 ∨ r ∈ acc.2) →
      r ∈ (l.foldl dedupStep acc).1 ∨ r ∈ (l.foldl dedupStep acc).2 := by
  induction l with
  | nil => intro acc r h; exact h
  | cons q t ih =>
    intro acc r h
    simp only [List.foldl_cons]
    exact ih (dedupStep acc q) r (dedupStep_persist_mem acc q r h)

theorem dedup_fold_covers (l : List QARecord) :
    ∀ (acc : List QARecord × List QARecord) (r : QARecord), r ∈ l →
      r ∈ (l.foldl dedupStep acc).1 ∨ r ∈ (l.foldl dedupStep acc).2 := by
  induction l with
  | nil => intro acc r h; exact absurd h (List.not_mem_nil r)
  | cons q t ih =>
    intro acc r h
    simp only [List.foldl_cons]
    rcases List.mem_cons.mp h with h1 | h1
    · exact dedup_fold_persist_mem t (dedupStep acc q) r
        (by rw [h1]; exact dedupStep_new_mem acc q)
    · exact ih (dedupStep acc q) r h1

theorem compact_ids_cover
    (groupO : List QARecord → Option (List (List Nat) × List Nat))
    (simScore : QARecord → QARecord → ℚ) (mergeLLM : List QARecord → Option String)
    (fresh : List QARecord → String) (now : Nat) (u : List QARecord) (θ : ℚ)
    (useLlm : Bool) (hNu : (idsOf u).Nodup)
    (hmerge : ∀ g ∈ findSimilarGroups groupO simScore u θ useLlm, 1 < g.length →
      (mergeSimilarQaPairs mergeLLM fresh now g).isSome = true) :
    ∀ r ∈ u,
      r ∈ (findSimilarGroups groupO simScore u θ useLlm).filterMap
          (compactOut mergeLLM fresh now) ∨
      r.id ∈ lineageOf ((findSimilarGroups groupO simScore u θ useLlm).filterMap
          (compactOut mergeLLM fresh now)) := by
  intro r hr
  have hrf := (findSimilarGroups_mem groupO simScore u θ useLlm hNu r).mpr hr
  rw [List.mem_flatten] at hrf
  obtain ⟨g, hg, hrg⟩ := hrf
  by_cases hlen : 1 < g.length
  · have hsome := hmerge g hg hlen
    cases hm : mergeSimilarQaPairs mergeLLM fresh now g with
    | none => rw [hm] at hsome; simp at hsome
    | some m =>
      have hco : compactOut mergeLLM fresh now g = some m := by
        unfold compactOut
        rw [if_pos hlen, hm]
      right
      have hmC : m ∈ (findSimilarGroups groupO simScore u θ useLlm).filterMap
          (compactOut mergeLLM fresh now) := List.mem_filterMap.mpr ⟨g, hg, hco⟩
      unfold lineageOf
      rw [List.mem_flatten]
      refine ⟨m.originalIds, List.mem_map_of_mem _ hmC, ?_⟩
      rw [mergeSimilar_originalIds mergeLLM fresh now g m hlen hm]
      exact List.mem_map_of_mem _ hrg
  · left
    have hne := findSimilarGroups_groups_nonempty groupO simScore u θ useLlm g hg
    cases g with
    | nil => exact absurd rfl hne
    | cons g0 gt =>
      have hgt : gt = [] := by
        cases gt with
        | nil => rfl
        | cons x xs =>
          exfalso
          exact hlen (by simp only [List.length_cons]; omega)
      subst hgt
      have hr0 : r = g0 := by simpa using hrg
      have hco : compactOut mergeLLM fresh now [g0] = some g0 := by
        unfold compactOut
        rw [if_neg hlen]
        rfl
      rw [hr0]
      exact List.mem_filterMap.mpr ⟨[g0], hg, hco⟩

theorem compact_lineage_sub
    (groupO : List QARecord → Option (List (List Nat) × List Nat))
    (simScore : QARecord → QARecord → ℚ) (mergeLLM : List QARecord → Option String)
    (fresh : List QARecord → String) (now : Nat) (u : List QARecord) (θ : ℚ)
    (useLlm : Bool) (hNu : (idsOf u).Nodup)
    (hlin : ∀ r ∈ u, r.originalIds = ([] : List String))
    (hmerge : ∀ g ∈ findSimilarGroups groupO simScore u θ useLlm, 1 < g.length →
      (mergeSimilarQaPairs mergeLLM fresh now g).isSome = true) :
    ∀ s ∈ lineageOf ((findSimilarGroups groupO simScore u θ useLlm).filterMap
        (compactOut mergeLLM fresh now)), s ∈ idsOf u := by
  intro s hs
  unfold lineageOf at hs
  rw [List.mem_flatten] at hs
  obtain ⟨ids, hids, hsids⟩ := hs
  rw [List.mem_map] at hids
  obtain ⟨m, hmC, hmids⟩ := hids
  rw [List.mem_filterMap] at hmC
  obtain ⟨g, hg, hco⟩ := hmC
  by_cases hlen : 1 < g.length
  · have hsome := hmerge g hg hlen
    cases hm : mergeSimilarQaPairs mergeLLM fresh now g with
    | none => rw [hm] at hsome; simp at hsome
    | some m' =>
      have hmm : m' = m := by
        unfold compactOut at hco
        rw [if_pos hlen, hm] at hco
        exact Option.some.inj hco
      subst hmm
      have hoid := mergeSimilar_originalIds mergeLLM fresh now g m' hlen hm
      rw [← hmids, hoid] at hsids
      unfold idsOf at hsids
      obtain ⟨r, hrg, hrid⟩ := List.mem_map.mp hsids
      have hru : r ∈ u := (findSimilarGroups_mem groupO simScore u θ useLlm hNu r).mp
        (List.mem_flatten.mpr ⟨g, hg, hrg⟩)
      rw [← hrid]
      exact List.mem_map_of_mem _ hru
  · have hne := findSimilarGroups_groups_nonempty groupO simScore u θ useLlm g hg
    cases g with
    | nil => exact absurd rfl hne
    | cons g0 gt =>
      have hm0 : m = g0 := by
        unfold compactOut at hco
        rw [if_neg hlen] at hco
        exact (Option.some.inj hco).symm
      have hgu : g0 ∈ u := (findSimilarGroups_mem groupO simScore u θ useLlm hNu
        g0).mp (List.mem_flatten.mpr ⟨g0 :: gt, hg, List.mem_cons_self g0 gt⟩)
      have hm00 : m.originalIds = [] := by rw [hm0]; exact hlin g0 hgu
      rw [← hmids, hm00] at hsids
      exact absurd hsids (List.not_mem_nil s)

/-- C2 — corrected.  The claimed two-term id equation fails (an exact duplicate's id
lands in neither the kept-verbatim ids nor any merge lineage); the conservation law
that does hold adds the dropped-duplicate ids as a third term.  For every batch with
pairwise-distinct ids and no pre-existing lineage metadata, when every merge the
grouping produces succeeds, `compact_qa_pairs` reports success and the input id set
equals (ids of records kept verbatim in the output) ∪ (ids referenced in some output
record's `original_ids` lineage) ∪ (ids of the records `detect_exact_duplicates`
discarded as duplicates). -/
theorem compact_id_conservation
    (groupO : List QARecord → Option (List (List Nat) × List Nat))
    (simScore : QARecord → QARecord → ℚ) (mergeLLM : List QARecord → Option String)
    (fresh : List QARecord → String) (now : Nat) (l : List QARecord) (θ : ℚ)
    (useLlm : Bool) (hN : (idsOf l).Nodup)
    (hlin : ∀ r ∈ l, r.originalIds = ([] : List String))
    (hmerge : ∀ g ∈ findSimilarGroups groupO simScore (detectExactDuplicates l).1 θ
        useLlm, 1 < g.length →
      (mergeSimilarQaPairs mergeLLM fresh now g).isSome = true) :
    (compactQaPairs groupO simScore mergeLLM fresh now l θ useLlm).success = true ∧
    (idsOf l).toFinset =
      ((idsOf ((compactQaPairs groupO simScore mergeLLM fresh now l θ
            useLlm).compacted.filter (fun r => decide (r ∈ l)))).toFinset ∪
        (lineageOf (compactQaPairs groupO simScore mergeLLM fresh now l θ
            useLlm).compacted).toFinset) ∪
      (idsOf (detectExactDuplicates l).2).toFinset := by
  refine ⟨rfl, ?_⟩
  have hC : (compactQaPairs groupO simScore mergeLLM fresh now l θ useLlm).compacted =
      (findSimilarGroups groupO simScore (detectExactDuplicates l).1 θ
        useLlm).filterMap (compactOut mergeLLM fresh now) := by
    show ((findSimilarGroups groupO simScore (detectExactDuplicates l).1 θ
        useLlm).foldl (compactFoldStep mergeLLM fresh now) ([], 0)).1 = _
    rw [compact_fold_fst]
    rfl
  rw [hC]
  have hNu : (idsOf (detectExactDuplicates l).1).Nodup := dedup_ids_nodup l hN
  have hulin : ∀ r ∈ (detectExactDuplicates l).1, r.originalIds = ([] : List String) := by
    intro r hr
    rcases dedup_fold_mem_src l ([], []) r (Or.inl hr) with h | h | h
    · exact absurd h (List.not_mem_nil r)
    · exact absurd h (List.not_mem_nil r)
    · exact hlin r h
  apply Finset.ext
  intro s
  simp only [Finset.mem_union, List.mem_toFinset]
  constructor
  · intro hs
    obtain ⟨r, hrl, hrid⟩ := List.mem_map.mp hs
    rcases dedup_fold_covers l ([], []) r hrl with hru | hrd
    · rcases compact_ids_cover groupO simScore mergeLLM fresh now
        (detectExactDuplicates l).1 θ useLlm hNu hmerge r hru with h | h
      · left; left
        have hrf : r ∈ ((findSimilarGroups groupO simScore
            (detectExactDuplicates l).1 θ useLlm).filterMap
              (compactOut mergeLLM fresh now)).filter (fun x => decide (x ∈ l)) :=
          List.mem_filter.mpr ⟨h, by simpa using hrl⟩
        rw [← hrid]
        exact List.mem_map_of_mem _ hrf
      · left; right
        rw [← hrid]
        exact h
    · right
      rw [← hrid]
      exact List.mem_map_of_mem _ hrd
  · intro hs
    rcases hs with (h | h) | h
    · obtain ⟨r, hrf, hrid⟩ := List.mem_map.mp h
      have hrl : r ∈ l := by simpa using (List.mem_filter.mp hrf).2
      rw [← hrid]
      exact List.mem_map_of_mem _ hrl
    · have hsu := compact_lineage_sub groupO simScore mergeLLM fresh now
        (detectExactDuplicates l).1 θ useLlm hNu hulin hmerge s h
      obtain ⟨r, hru, hrid⟩ := List.mem_map.mp hsu
      have hrl : r ∈ l := by
        rcases dedup_fold_mem_src l ([], []) r (Or.inl hru) with h2 | h2 | h2
        · exact absurd h2 (List.not_mem_nil r)
        · exact absurd h2 (List.not_mem_nil r)
        · exact h2
      rw [← hrid]
      exact List.mem_map_of_mem _ hrl
    · obtain ⟨r, hrd, hrid⟩ := List.mem_map.mp h
      have hrl : r ∈ l := by
        rcases dedup_fold_mem_src l ([], []) r (Or.inr hrd) with h2 | h2 | h2
        · exact absurd h2 (List.not_mem_nil r)
        · exact absurd h2 (List.not_mem_nil r)
        · exact h2
      rw [← hrid]
      exact List.mem_map_of_mem _ hrl

/-- C2 counterexample — two records with the same normalized question and equal
confidence: the exact duplicate is discarded, compaction succeeds, and the
duplicate's id `"b"` appears in neither the kept-verbatim ids nor any merge lineage,
so the claimed two-term id equation fails. -/
theorem compact_id_loss_counterexample :
    (compactQaPairs (fun _ => none) (fun _ _ => (0 : ℚ)) (fun _ => none)
        (fun _ => "") 0 [wRec "a", { wRec "b" with question := "qa" }]
        fallbackThreshold true).success = true ∧
    ¬ ((idsOf [wRec "a", { wRec "b" with question := "qa" }]).toFinset =
      (idsOf ((compactQaPairs (fun _ => none) (fun _ _ => (0 : ℚ)) (fun _ => none)
          (fun _ => "") 0 [wRec "a", { wRec "b" with question := "qa" }]
          fallbackThreshold true).compacted.filter
            (fun r => decide
              (r ∈ [wRec "a", { wRec "b" with question := "qa" }])))).toFinset ∪
      (lineageOf (compactQaPairs (fun _ => none) (fun _ _ => (0 : ℚ)) (fun _ => none)
          (fun _ => "") 0 [wRec "a", { wRec "b" with question := "qa" }]
          fallbackThreshold true).compacted).toFinset) := by
  decide

/-- C2 witness: two distinct-question records, a grouping oracle that groups them,
and a merge oracle answering `"Q: q\nA: ans"` — both ids survive through the merged
record's lineage and the conservation law holds with an empty duplicate term. -/
theorem compact_id_conservation_witness :
    (compactQaPairs (fun _ => some ([[0, 1]], [])) (fun _ _ => (0 : ℚ))
        (fun _ => some "Q: q\nA: ans") (fun _ => "m") 0 [wRec "a", wRec "b"]
        fallbackThreshold true).success = true ∧
    (idsOf [wRec "a", wRec "b"]).toFinset =
      ((idsOf ((compactQaPairs (fun _ => some ([[0, 1]], [])) (fun _ _ => (0 : ℚ))
            (fun _ => some "Q: q\nA: ans") (fun _ => "m") 0 [wRec "a", wRec "b"]
            fallbackThreshold true).compacted.filter
              (fun r => decide (r ∈ [wRec "a", wRec "b"])))).toFinset ∪
        (lineageOf (compactQaPairs (fun _ => some ([[0, 1]], [])) (fun _ _ => (0 : ℚ))
            (fun _ => some "Q: q\nA: ans") (fun _ => "m") 0 [wRec "a", wRec "b"]
            fallbackThreshold true).compacted).toFinset) ∪
      (idsOf (detectExactDuplicates [wRec "a", wRec "b"]).2).toFinset :=
  compact_id_conservation (fun _ => some ([[0, 1]], [])) (fun _ _ => (0 : ℚ))
    (fun _ => some "Q: q\nA: ans") (fun _ => "m") 0 [wRec "a", wRec "b"]
    fallbackThreshold true (by decide) (by decide) (by decide)
